import Mathlib

/-!
Verification of the `kazuba-hooks` learning and knowledge core
(`src/rust/kazuba-hooks/src/learning.rs` and `src/rust/kazuba-hooks/src/knowledge.rs`).

The Rust code is embedded shallowly:

* `f32`/`f64` arithmetic is modelled by exact rational arithmetic (`ℚ`) wherever the
  source only adds, multiplies, divides and compares; the two places where the source
  uses transcendental functions (`sqrt` in vector normalisation / cosine similarity,
  `ln_1p` in the eviction score) are modelled over `ℝ`.
* `HashMap`s are modelled as association lists with distinct keys; the random
  iteration order of a `HashMap` is made explicit as an `order` parameter where the
  program's observable behaviour can depend on it.
* Panicking operations (`Vec::remove` out of bounds) are modelled with `Option`.
-/

set_option maxHeartbeats 1600000

namespace Kazuba

/-! # Definitions -/

/-! ## Association lists (embedding of `std::collections::HashMap`) -/

/-- Insert-or-replace in an association list, mirroring `HashMap::insert`:
if the key is present its value is replaced, otherwise the binding is appended. -/
def alInsert {κ ν : Type} [DecidableEq κ] (l : List (κ × ν)) (k : κ) (v : ν) :
    List (κ × ν) :=
  if l.any (fun kv => decide (kv.1 = k)) then
    l.map (fun kv => if kv.1 = k then (k, v) else kv)
  else
    l ++ [(k, v)]

/-- Lookup in an association list, mirroring `HashMap::get`. -/
def alLookup {κ ν : Type} [DecidableEq κ] (l : List (κ × ν)) (k : κ) : Option ν :=
  (l.find? (fun kv => decide (kv.1 = k))).map (fun kv => kv.2)

/-- The keys of an association list. -/
def alKeys {κ ν : Type} (l : List (κ × ν)) : List κ := l.map (fun kv => kv.1)

/-! ## TD(λ) learner (`learning.rs`, `TDLearner`)

Q-values and hyperparameters are `f64` in the source; they are embedded as `ℚ`,
since `TDLearner` only ever adds, multiplies and compares them. -/

/-- `learning.rs`: `State` (equality and hashing by the string fields). -/
structure State where
  id : String
  features : String
deriving DecidableEq

/-- `learning.rs`: `Action`. -/
structure Action where
  id : String
  action_type : String
deriving DecidableEq

/-- `learning.rs`: `TDUpdateResult`. -/
structure TDUpdateResult where
  new_q_value : ℚ
  td_error : ℚ
  states_updated : ℕ
deriving DecidableEq

/-- `learning.rs`: `TDLearner`. The two `HashMap<(String, String), f64>` tables are
association lists keyed by `(state id, action id)`. -/
structure TDLearner where
  q_table : List ((String × String) × ℚ)
  eligibility_traces : List ((String × String) × ℚ)
  alpha : ℚ
  gamma : ℚ
  lambda : ℚ
  epsilon : ℚ
deriving DecidableEq

/-- `TDLearner::new`: hyperparameters are clamped to `[0, 1]`. -/
def TDLearner.new (alpha gamma lambda epsilon : ℚ) : TDLearner :=
  ⟨[], [], max 0 (min alpha 1), max 0 (min gamma 1),
   max 0 (min lambda 1), max 0 (min epsilon 1)⟩

/-- `TDLearner::get_q`: Q-value of a state-action pair, `0.0` when unseen. -/
def TDLearner.get_q (l : TDLearner) (state : State) (action : Action) : ℚ :=
  (alLookup l.q_table (state.id, action.id)).getD 0

/-- `TDLearner::get_max_q`: fold of `max` over the Q-values recorded for the given
state id, starting from `0.0`. -/
def TDLearner.get_max_q (l : TDLearner) (state : State) : ℚ :=
  ((l.q_table.filter (fun kv => decide (kv.1.1 = state.id))).map (fun kv => kv.2)).foldl max 0

/-- The trace threshold `0.01` used by `TDLearner::update`. -/
def trace_threshold : ℚ := 1 / 100

/-- Step 4 of `TDLearner::update`: set the eligibility trace of the current
state-action key to exactly `1.0` (replacing traces). -/
def TDLearner.markTrace (l : TDLearner) (ck : String × String) :
    List ((String × String) × ℚ) :=
  alInsert l.eligibility_traces ck 1

/-- Step 2 of `TDLearner::update`: the next-value estimate, SARSA-style when a
next action is given, greedy otherwise. -/
def TDLearner.nextQ (l : TDLearner) (next_state : State) (next_action : Option Action) : ℚ :=
  match next_action with
  | some next_act => l.get_q next_state next_act
  | none => l.get_max_q next_state

/-- Step 5 of `TDLearner::update`: the keys whose traces exceed the threshold
(`keys_to_update` in the source). -/
def sweepKeys (traces : List ((String × String) × ℚ)) : List (String × String) :=
  (traces.filter (fun kv => decide (trace_threshold < kv.2))).map (fun kv => kv.1)

/-- Step 5 of `TDLearner::update`: apply `Q(s,a) += α·δ·trace(s,a)` at every key
whose trace exceeds the threshold. -/
def sweepQ (alpha td_error : ℚ) (traces : List ((String × String) × ℚ))
    (q_table : List ((String × String) × ℚ)) : List ((String × String) × ℚ) :=
  (sweepKeys traces).foldl
    (fun q k =>
      alInsert q k ((alLookup q k).getD 0 + alpha * td_error * ((alLookup traces k).getD 0)))
    q_table

/-- Steps 6-7 of `TDLearner::update`: decay every trace by `γ·λ` and retain only
traces above the threshold. -/
def decayFilterTraces (gl : ℚ) (traces : List ((String × String) × ℚ)) :
    List ((String × String) × ℚ) :=
  (traces.map (fun kv => (kv.1, kv.2 * gl))).filter (fun kv => decide (trace_threshold < kv.2))

/-- `TDLearner::update`, the TD(λ) update. Returns the new learner state together
with the `TDUpdateResult` the Rust method returns. -/
def TDLearner.update (l : TDLearner) (state : State) (action : Action) (reward : ℚ)
    (next_state : State) (next_action : Option Action) : TDLearner × TDUpdateResult :=
  let current_key := (state.id, action.id)
  let current_q := (alLookup l.q_table current_key).getD 0
  let next_q := l.nextQ next_state next_action
  let td_error := reward + l.gamma * next_q - current_q
  let traces1 := l.markTrace current_key
  let q1 := sweepQ l.alpha td_error traces1 l.q_table
  let states_updated := (sweepKeys traces1).length
  let traces3 := decayFilterTraces (l.gamma * l.lambda) traces1
  let new_q_value := (alLookup q1 current_key).getD 0
  ({ l with q_table := q1, eligibility_traces := traces3 },
   ⟨new_q_value, td_error, states_updated⟩)

/-- `str::splitn(2, '|')` on the character list: split at the first `'|'`, if any. -/
def splitCharsBar : List Char → List Char × Option (List Char)
  | [] => ([], none)
  | c :: cs =>
    if c = '|' then ([], some cs)
    else
      let r := splitCharsBar cs
      (c :: r.1, r.2)

/-- `key.splitn(2, '|').collect::<Vec<_>>()`: one part when the key has no `'|'`,
otherwise the part before the first `'|'` and everything after it. -/
def splitnBar (s : String) : List String :=
  match splitCharsBar s.data with
  | (before, none) => [String.mk before]
  | (before, some after) => [String.mk before, String.mk after]

/-- `TDLearner::import_q_table`: every entry whose key splits into exactly two parts
is inserted into the Q-table; other entries are skipped. -/
def TDLearner.import_q_table (l : TDLearner) (data : List (String × ℚ)) : TDLearner :=
  { l with
    q_table := data.foldl
      (fun q kv =>
        match splitnBar kv.1 with
        | [a, b] => alInsert q (a, b) kv.2
        | _ => q)
      l.q_table }

/-- Well-formedness of the `HashMap` embedding: both tables have distinct keys. -/
def TDLearner.WF (l : TDLearner) : Prop :=
  (alKeys l.q_table).Nodup ∧ (alKeys l.eligibility_traces).Nodup

/-- The Q-values recorded for a given state id, in table order. -/
def recordedQs (l : TDLearner) (sid : String) : List ℚ :=
  (l.q_table.filter (fun kv => decide (kv.1.1 = sid))).map (fun kv => kv.2)

/-! ## Knowledge engine (`knowledge.rs`)

Scores are `f32` in the source; they are embedded as `ℚ` since the scoring
pipeline only adds, multiplies, divides and compares. -/

/-- `knowledge.rs`: `KnowledgePattern`. -/
structure KnowledgePattern where
  id : String
  keywords : List String
  error_codes : List String
  tags : List String
  path_patterns : List String
  priority : ℚ
  content : String
deriving DecidableEq

instance : Inhabited KnowledgePattern := ⟨⟨"", [], [], [], [], 1/2, ""⟩⟩

/-- `knowledge.rs`: `SignalScores`. -/
structure SignalScores where
  keyword_score : ℚ
  error_code_score : ℚ
  tag_score : ℚ
  path_score : ℚ
deriving DecidableEq

/-- `knowledge.rs`: `PatternMatch`. -/
structure PatternMatch where
  pattern_id : String
  score : ℚ
  signals : SignalScores
  keyword_matches : ℕ
deriving DecidableEq

/-- `knowledge.rs`: `KnowledgeQuery`. -/
structure KnowledgeQuery where
  text : String
  error_codes : List String
  tags : List String
  file_path : Option String
deriving DecidableEq

/-- `str::to_lowercase`, character by character (ASCII-faithful). -/
def lowerStr (s : String) : String := ⟨s.data.map Char.toLower⟩

/-- `str::contains(&str)`: substring containment. -/
def strContains (hay needle : String) : Bool := decide (List.IsInfix needle.data hay.data)

/-- The deduplicated lowercased keyword vocabulary, in first-occurrence order —
built this way both in `KnowledgeEngine::new` and again inside `match_patterns`. -/
def allKeywords (patterns : List KnowledgePattern) : List String :=
  patterns.foldl
    (fun acc p => p.keywords.foldl
      (fun acc kw =>
        let lower := lowerStr kw
        if lower ∈ acc then acc else acc ++ [lower])
      acc)
    []

/-- Append an index to the value list of a multimap entry, mirroring
`entry(lower).or_default().push(idx)`. -/
def multiInsert (l : List (String × List ℕ)) (k : String) (i : ℕ) : List (String × List ℕ) :=
  if l.any (fun kv => decide (kv.1 = k)) then
    l.map (fun kv => if kv.1 = k then (k, kv.2 ++ [i]) else kv)
  else l ++ [(k, [i])]

/-- The `keyword_to_pattern_ids` multimap built in `KnowledgeEngine::new`. -/
def keywordToPatternIds (patterns : List KnowledgePattern) : List (String × List ℕ) :=
  patterns.enum.foldl
    (fun acc p => p.2.keywords.foldl (fun acc kw => multiInsert acc (lowerStr kw) p.1) acc)
    []

/-- Leftmost-first, non-overlapping multi-pattern matching over a character list,
embedding `aho_corasick::AhoCorasick::find_iter` with `MatchKind::LeftmostFirst`:
scan positions left to right; at each position report the first needle (in
vocabulary order) that matches there, then continue after the match. The fuel is
the text length, which bounds the number of steps since every step consumes at
least one character. (For an empty needle the model reports a match at every
character position but not at the end of the text.) -/
def acFindFrom (keywords : List (List Char)) : ℕ → List Char → List ℕ
  | 0, _ => []
  | _, [] => []
  | fuel + 1, c :: rest =>
    match keywords.findIdx? (fun kw => kw.isPrefixOf (c :: rest)) with
    | some i =>
      i :: acFindFrom keywords fuel ((c :: rest).drop (max 1 ((keywords.getD i []).length)))
    | none => acFindFrom keywords fuel rest

/-- The sequence of matched keyword indices that `ac.find_iter(&query_lower)`
produces. -/
def acFindIter (keywords : List String) (text : String) : List ℕ :=
  acFindFrom (keywords.map (fun kw => kw.data)) text.data.length text.data

/-- The raw keyword match counter a pattern accumulates in step 1 of
`match_patterns`: every automaton match increments the counter once per
occurrence of the pattern's index in the matched keyword's multimap entry. -/
def keywordMatchCount (patterns : List KnowledgePattern) (query : KnowledgeQuery)
    (idx : ℕ) : ℕ :=
  ((acFindIter (allKeywords patterns) (lowerStr query.text)).map
    (fun m =>
      ((alLookup (keywordToPatternIds patterns)
        ((allKeywords patterns).getD m "")).getD []).count idx)).sum

/-- The key set of the `pattern_scores` map after step 1 of `match_patterns`:
exactly the pattern indices with a nonzero raw counter. The random iteration
order of this `HashMap` is modelled by quantifying over permutations of this
list. -/
def nonzeroKeys (patterns : List KnowledgePattern) (query : KnowledgeQuery) : List ℕ :=
  (List.range patterns.length).filter
    (fun i => decide (0 < keywordMatchCount patterns query i))

/-- Lowercase a string list and deduplicate it: the `HashSet<String>` views used
by the scoring code. -/
def lowerSet (l : List String) : List String := (l.map (fun s => lowerStr s)).dedup

/-- `|a ∩ b|` for deduplicated lists. -/
def interCount (a b : List String) : ℕ := (a.filter (fun x => decide (x ∈ b))).length

/-- `|a ∪ b|` for deduplicated lists. -/
def unionCount (a b : List String) : ℕ :=
  (a ++ b.filter (fun x => decide (x ∉ a))).length

/-- Step 2-3 of `match_patterns`: the four signals of one pattern. -/
def mkSignals (query : KnowledgeQuery) (p : KnowledgePattern) (cnt : ℕ) : SignalScores :=
  let pattern_keywords := lowerSet p.keywords
  let keyword_score : ℚ :=
    if pattern_keywords ≠ [] then (cnt : ℚ) / (pattern_keywords.length : ℚ) else 0
  let query_error_codes := lowerSet query.error_codes
  let query_tags := lowerSet query.tags
  let error_code_score : ℚ :=
    if query_error_codes ≠ [] ∧ p.error_codes ≠ [] then
      (interCount query_error_codes (lowerSet p.error_codes) : ℚ)
        / ((max 1 query_error_codes.length : ℕ) : ℚ)
    else 0
  let tag_score : ℚ :=
    if query_tags ≠ [] ∧ p.tags ≠ [] then
      let pattern_tags := lowerSet p.tags
      let uni := unionCount query_tags pattern_tags
      if 0 < uni then (interCount query_tags pattern_tags : ℚ) / (uni : ℚ) else 0
    else 0
  let path_score : ℚ :=
    match query.file_path with
    | some fp =>
      if p.path_patterns.any (fun pp => strContains (lowerStr fp) (lowerStr pp)) then 1 else 0
    | none => 0
  ⟨min keyword_score 1, error_code_score, tag_score, path_score⟩

/-- Step 3 of `match_patterns`: the `PatternMatch` record built for one pattern
index, with the weighted combined score
`(0.40·keyword + 0.25·error + 0.20·tag + 0.15·path) × priority`. -/
def mkMatch (patterns : List KnowledgePattern) (query : KnowledgeQuery) (idx : ℕ) :
    PatternMatch :=
  let p := patterns.getD idx default
  let cnt := keywordMatchCount patterns query idx
  let signals := mkSignals query p cnt
  let combined_score :=
    (signals.keyword_score * (2/5) + signals.error_code_score * (1/4)
      + signals.tag_score * (1/5) + signals.path_score * (3/20)) * p.priority
  ⟨p.id, combined_score, signals, cnt⟩

/-- Steps 2-3 of `match_patterns` for a given iteration order of the
`pattern_scores` map, dropping matches scoring exactly `0`. -/
def computeMatches (patterns : List KnowledgePattern) (query : KnowledgeQuery)
    (order : List ℕ) : List PatternMatch :=
  (order.map (fun idx => mkMatch patterns query idx)).filter (fun m => decide (0 < m.score))

/-- Stable insertion of a match into a list sorted by score descending. -/
def insertByScore (m : PatternMatch) : List PatternMatch → List PatternMatch
  | [] => [m]
  | b :: t => if b.score ≤ m.score then m :: b :: t else b :: insertByScore m t

/-- `results.sort_by(|a, b| b.score.partial_cmp(&a.score).unwrap_or(Equal))`:
Rust's stable sort by score descending. A stable sort for a total preorder has a
unique result, so stable insertion sort is extensionally the same function. -/
def sortByScoreDesc : List PatternMatch → List PatternMatch
  | [] => []
  | a :: t => insertByScore a (sortByScoreDesc t)

/-- `KnowledgeEngine::match_patterns` on a cache miss (the cache-hit path returns
`cached.into_iter().take(top_k)` for a previously computed value): score, sort,
truncate to `top_k`. -/
def match_patterns (patterns : List KnowledgePattern) (query : KnowledgeQuery)
    (top_k : ℕ) (order : List ℕ) : List PatternMatch :=
  (sortByScoreDesc (computeMatches patterns query order)).take top_k

/-- `knowledge.rs`: `CacheEntry`. Timestamps are an abstract monotone clock in
natural numbers; `created_at.elapsed()` at time `now` is `now - created_at`. -/
structure CacheEntry where
  value : List PatternMatch
  created_at : ℕ
  ttl : ℕ
deriving DecidableEq

/-- `CacheEntry::is_expired`: `created_at.elapsed() > ttl`. -/
def CacheEntry.is_expired (now : ℕ) (e : CacheEntry) : Bool :=
  decide (e.ttl < now - e.created_at)

/-- `min_by_key(|(_, v)| v.created_at)` keeping the first minimum in iteration
order. -/
def minByCreated (x : String × CacheEntry) : List (String × CacheEntry) →
    (String × CacheEntry)
  | [] => x
  | y :: t => if y.2.created_at < x.2.created_at then minByCreated y t else minByCreated x t

/-- The eviction block of `KnowledgeEngine::cache_set`: when the cache is at
capacity, first drop every expired entry; if still at capacity, remove the entry
with the oldest `created_at` (ties broken by iteration order, first minimum). -/
def evictForInsert (max_size now : ℕ) (cache : List (String × CacheEntry)) :
    List (String × CacheEntry) :=
  if max_size ≤ cache.length then
    if max_size ≤ (cache.filter (fun kv => !(kv.2.is_expired now))).length then
      match cache.filter (fun kv => !(kv.2.is_expired now)) with
      | [] => ([] : List (String × CacheEntry))
      | x :: xs => (x :: xs).eraseP (fun kv => decide (kv.1 = (minByCreated x xs).1))
    else cache.filter (fun kv => !(kv.2.is_expired now))
  else cache

/-- `KnowledgeEngine::cache_set`: evict if needed, then insert. -/
def cache_set (max_size now : ℕ) (cache : List (String × CacheEntry)) (key : String)
    (value : List PatternMatch) (ttl : ℕ) : List (String × CacheEntry) :=
  alInsert (evictForInsert max_size now cache) key ⟨value, now, ttl⟩

open scoped Classical

/-! ## Working memory (`learning.rs`, `WorkingMemory`)

Embeddings and importances are `f32`; since `WorkingMemory` takes square roots
(normalisation) and logarithms (`ln_1p` in the eviction score), these are
embedded over `ℝ`. Timestamps (`creation_time.elapsed().as_millis()`) form an
abstract monotone clock passed explicitly as `now : ℕ`. -/

/-- `learning.rs`: `MemoryEntry`. -/
structure MemoryEntry where
  id : String
  content : String
  embedding : List ℝ
  access_count : ℕ
  last_access_ms : ℕ
  importance : ℝ
  tags : List String

/-- `normalize_vector`: divide by the Euclidean norm when it is positive. -/
noncomputable def normalize_vector (v : List ℝ) : List ℝ :=
  if 0 < Real.sqrt ((v.map (fun x => x * x)).sum) then
    v.map (fun x => x / Real.sqrt ((v.map (fun x => x * x)).sum))
  else v

/-- `learning.rs`: `WorkingMemory` (the `creation_time` field is the clock
origin and is represented by passing `now` explicitly). -/
structure WorkingMemory where
  entries : List MemoryEntry
  max_capacity : ℕ

/-- `WorkingMemory::new`. -/
def WorkingMemory.new (max_capacity : ℕ) : WorkingMemory := ⟨[], max_capacity⟩

/-- The eviction score of `find_eviction_candidate`:
`last_access_ms × importance × ln_1p(access_count)`. -/
noncomputable def evictionScore (e : MemoryEntry) : ℝ :=
  (e.last_access_ms : ℝ) * e.importance * Real.log (1 + (e.access_count : ℝ))

/-- `Iterator::min_by` with comparator `score_a.partial_cmp(&score_b)`: fold that
keeps the current element unless the next one is strictly smaller, so the first
minimum in iteration order wins. -/
noncomputable def minByScore : List (ℕ × MemoryEntry) → (ℕ × MemoryEntry) → (ℕ × MemoryEntry)
  | [], best => best
  | p :: ps, best =>
    minByScore ps (if evictionScore p.2 < evictionScore best.2 then p else best)

/-- `WorkingMemory::find_eviction_candidate`: index of the first entry with
minimal eviction score, `0` when the store is empty (`unwrap_or(0)`). -/
noncomputable def find_eviction_candidate (entries : List MemoryEntry) : ℕ :=
  match entries with
  | [] => 0
  | e :: es => (minByScore (es.enumFrom 1) (0, e)).1

/-- The field updates `WorkingMemory::add` applies to the incoming entry before
storing it: stamp the clock, reset the access count to `1`, normalize. -/
noncomputable def stampEntry (now : ℕ) (entry : MemoryEntry) : MemoryEntry :=
  { entry with
    last_access_ms := now
    access_count := 1
    embedding := normalize_vector entry.embedding }

/-- `WorkingMemory::add`. `Vec::remove` panics when the index is out of bounds,
which is modelled by returning `none`; otherwise the new store and the returned
index (`entries.len() - 1` after the push) are produced. -/
noncomputable def WorkingMemory.add (wm : WorkingMemory) (now : ℕ) (entry : MemoryEntry) :
    Option (WorkingMemory × ℕ) :=
  if wm.max_capacity ≤ wm.entries.length then
    if find_eviction_candidate wm.entries < wm.entries.length then
      some ({ wm with entries :=
          wm.entries.eraseIdx (find_eviction_candidate wm.entries) ++ [stampEntry now entry] },
        (wm.entries.eraseIdx (find_eviction_candidate wm.entries)).length)
    else none
  else some ({ wm with entries := wm.entries ++ [stampEntry now entry] }, wm.entries.length)

/-- A sequence of `add` calls, each with its own clock reading. -/
noncomputable def addAll (wm : WorkingMemory) : List (ℕ × MemoryEntry) → Option WorkingMemory
  | [] => some wm
  | te :: rest =>
    match wm.add te.1 te.2 with
    | some r => addAll r.1 rest
    | none => none

/-! ## Concrete instances used in witnesses and counterexamples -/

/-- Scenario B entries with importances `0, 0.2, 0.4, 0.6`. -/
noncomputable def mem1 : MemoryEntry := ⟨"m1", "", [], 0, 0, 0, []⟩

/-- Second scenario B entry. -/
noncomputable def mem2 : MemoryEntry := ⟨"m2", "", [], 0, 0, 1/5, []⟩

/-- Third scenario B entry. -/
noncomputable def mem3 : MemoryEntry := ⟨"m3", "", [], 0, 0, 2/5, []⟩

/-- Fourth scenario B entry. -/
noncomputable def mem4 : MemoryEntry := ⟨"m4", "", [], 0, 0, 3/5, []⟩

/-- Two identical patterns (same keyword, same priority): their combined scores
tie for every query. -/
def tiePatterns : List KnowledgePattern :=
  [⟨"p1", ["a"], [], [], [], 1, ""⟩, ⟨"p2", ["a"], [], [], [], 1, ""⟩]

/-- A query matching both tied patterns. -/
def tieQuery : KnowledgeQuery := ⟨"a", [], [], none⟩

/-- A single pattern, so every computed score list is pairwise distinct. -/
def onePattern : List KnowledgePattern := [⟨"p1", ["a"], [], [], [], 1, ""⟩]

/-- A test state with id `s1`. -/
def s1 : State := ⟨"s1", "f1"⟩

/-- A test state with id `s2`. -/
def s2 : State := ⟨"s2", "f2"⟩

/-- A test action with id `a1`. -/
def a1 : Action := ⟨"a1", "t"⟩

/-- A learner whose only recorded Q-value, for state id `s2`, is negative.
Such a table is reachable through the public interface, e.g. by importing
`{"s2|a1": -1}` or by updates with negative rewards. -/
def negLearner : TDLearner :=
  ⟨[(("s2", "a1"), -1)], [], 1, 1, 1, 1⟩

/-! ## Cluster engine (`learning.rs`, DBSCAN-lite) -/

/-- `learning.rs`: `Cluster`. -/
structure Cluster where
  id : ℕ
  point_indices : List ℕ
  centroid : List ℝ
  size : ℕ

/-- `learning.rs`: `ClusterEngine` (`min_points` and the distance threshold
`epsilon`). -/
structure ClusterEngine where
  min_points : ℕ
  epsilon : ℝ

/-- `ClusterEngine::new`: `epsilon` is clamped to `[0, 2]`. -/
noncomputable def ClusterEngine.new (min_points : ℕ) (epsilon : ℝ) : ClusterEngine :=
  ⟨min_points, min 2 (max 0 epsilon)⟩

/-- `cosine_similarity`: `0` on length mismatch, empty input or a zero norm,
otherwise the normalised dot product clamped to `[-1, 1]`. -/
noncomputable def cosine_similarity (a b : List ℝ) : ℝ :=
  if a.length ≠ b.length ∨ a = [] then 0
  else if Real.sqrt ((a.map (fun x => x * x)).sum) = 0 ∨
      Real.sqrt ((b.map (fun x => x * x)).sum) = 0 then 0
  else min 1 (max (-1) ((List.zipWith (fun x y => x * y) a b).sum /
    (Real.sqrt ((a.map (fun x => x * x)).sum) * Real.sqrt ((b.map (fun x => x * x)).sum))))

/-- `ClusterEngine::region_query`: every index other than `index` whose distance
`1 - cosine_similarity` to the point at `index` is within `epsilon`.
`embeddings[index]` is modelled with `getD`; every caller passes `index` in
bounds, where `getD` agrees with the Rust indexing. -/
noncomputable def regionQuery (ce : ClusterEngine) (embeddings : List (List ℝ))
    (index : ℕ) : List ℕ :=
  (embeddings.enum.filter (fun p =>
    if p.1 = index then false
    else decide (1 - cosine_similarity (embeddings.getD index []) p.2 ≤ ce.epsilon))).map
    Prod.fst

/-- The number of `false` flags in a visited vector: the termination measure of
the cluster expansion loop (each iteration either visits a new point or shrinks
the seed stack). -/
def countFalse : List Bool → ℕ
  | [] => 0
  | b :: bs => (if b then 0 else 1) + countFalse bs

/-- The `while let Some(point) = seeds.pop()` loop of `detect_clusters`. The
Rust `Vec` stack popped from the back is represented reversed, head on top, so
`seeds.extend(point_neighbors)` becomes `point_neighbors.reverse ++ rest`.
Indexing into `visited` / `cluster_assignments` is via `getD` with defaults
that make an out-of-bounds point a no-op; every caller keeps all seeds in
bounds, where `getD` agrees with the Rust indexing. -/
noncomputable def expandLoop (ce : ClusterEngine) (embeddings : List (List ℝ))
    (cluster_id : ℕ) :
    List ℕ → List Bool → List ℤ → List ℕ → List Bool × List ℤ × List ℕ
  | [], visited, assignments, cluster_points => (visited, assignments, cluster_points)
  | point :: rest, visited, assignments, cluster_points =>
    if hv : visited.getD point true = true then
      if assignments.getD point 0 = -1 then
        expandLoop ce embeddings cluster_id rest visited
          (assignments.set point (cluster_id : ℤ)) (cluster_points ++ [point])
      else
        expandLoop ce embeddings cluster_id rest visited assignments cluster_points
    else
      if assignments.getD point 0 = -1 then
        expandLoop ce embeddings cluster_id
          (if ce.min_points ≤ (regionQuery ce embeddings point).length then
            (regionQuery ce embeddings point).reverse ++ rest
          else rest)
          (visited.set point true)
          (assignments.set point (cluster_id : ℤ)) (cluster_points ++ [point])
      else
        expandLoop ce embeddings cluster_id
          (if ce.min_points ≤ (regionQuery ce embeddings point).length then
            (regionQuery ce embeddings point).reverse ++ rest
          else rest)
          (visited.set point true) assignments cluster_points
termination_by seeds visited _ _ => (countFalse visited, seeds.length)
decreasing_by
all_goals
  (simp_wf
   first
   | exact Prod.Lex.right _ (Nat.lt_succ_self _)
   | (refine Prod.Lex.left _ _ ?_
      have hv' : visited.getD point true = false := by simpa using hv
      clear * - hv'
      induction visited generalizing point with
      | nil => simp [List.getD] at hv'
      | cons b bs ih =>
        cases point with
        | zero =>
          simp only [List.getD_cons_zero] at hv'
          subst hv'
          have h1 : countFalse (List.set (false :: bs) 0 true) = countFalse bs := by
            simp [countFalse]
          have h2 : countFalse (false :: bs) = 1 + countFalse bs := by
            simp [countFalse]
          omega
        | succ q =>
          have hq := ih q hv'
          simp only [List.set_cons_succ, countFalse]
          omega))

/-- The inner accumulation of `calculate_centroid`: `centroid[i] += val` for
each coordinate of one member embedding. Coordinates of the accumulator beyond
the embedding's length stay unchanged. -/
noncomputable def addInto (acc emb : List ℝ) : List ℝ :=
  acc.enum.map (fun p => if p.1 < emb.length then p.2 + emb.getD p.1 0 else p.2)

/-- `ClusterEngine::calculate_centroid`: sum the member embeddings
coordinatewise, divide by the member count, normalize. -/
noncomputable def calculate_centroid (embeddings : List (List ℝ)) (indices : List ℕ) :
    List ℝ :=
  match indices, embeddings with
  | [], _ => []
  | _, [] => []
  | _, _ =>
    normalize_vector
      ((indices.foldl (fun acc idx => addInto acc (embeddings.getD idx []))
          (List.replicate (embeddings.headD []).length 0)).map
        (fun x => x / (indices.length : ℝ)))

/-- One iteration of the `for i in 0..n` loop of `detect_clusters`, acting on
the state `(visited, cluster_assignments, clusters)`. -/
noncomputable def dcStep (ce : ClusterEngine) (embeddings : List (List ℝ))
    (st : List Bool × List ℤ × List Cluster) (i : ℕ) : List Bool × List ℤ × List Cluster :=
  if st.1.getD i true = true then st
  else if ce.min_points ≤ (regionQuery ce embeddings i).length then
    ((expandLoop ce embeddings st.2.2.length ((regionQuery ce embeddings i).reverse)
        (st.1.set i true) (st.2.1.set i (st.2.2.length : ℤ)) [i]).1,
      (expandLoop ce embeddings st.2.2.length ((regionQuery ce embeddings i).reverse)
        (st.1.set i true) (st.2.1.set i (st.2.2.length : ℤ)) [i]).2.1,
      st.2.2 ++ [Cluster.mk st.2.2.length
        (expandLoop ce embeddings st.2.2.length ((regionQuery ce embeddings i).reverse)
          (st.1.set i true) (st.2.1.set i (st.2.2.length : ℤ)) [i]).2.2
        (calculate_centroid embeddings (expandLoop ce embeddings st.2.2.length
          ((regionQuery ce embeddings i).reverse)
          (st.1.set i true) (st.2.1.set i (st.2.2.length : ℤ)) [i]).2.2)
        (expandLoop ce embeddings st.2.2.length ((regionQuery ce embeddings i).reverse)
          (st.1.set i true) (st.2.1.set i (st.2.2.length : ℤ)) [i]).2.2.length])
  else st

/-- `ClusterEngine::detect_clusters`: DBSCAN-lite over the `0..n` loop with
`visited`, `cluster_assignments` (`-1` = unassigned) and the accumulated
cluster list. -/
noncomputable def detectClusters (ce : ClusterEngine) (embeddings : List (List ℝ)) :
    List Cluster :=
  match embeddings with
  | [] => []
  | _ :: _ =>
    ((List.range embeddings.length).foldl (dcStep ce embeddings)
      (List.replicate embeddings.length false,
        List.replicate embeddings.length (-1 : ℤ), [])).2.2

/-! # Theorems -/

/-! ## Association list lemmas -/

theorem alLookup_nil {κ ν : Type} [DecidableEq κ] (k : κ) :
    alLookup ([] : List (κ × ν)) k = none := rfl

theorem alLookup_cons {κ ν : Type} [DecidableEq κ] (a : κ × ν) (l : List (κ × ν)) (k : κ) :
    alLookup (a :: l) k = if a.1 = k then some a.2 else alLookup l k := by
  by_cases h : a.1 = k <;> simp [alLookup, List.find?_cons, h]

theorem alLookup_append {κ ν : Type} [DecidableEq κ] (l₁ l₂ : List (κ × ν)) (k : κ)
    (h : alLookup l₁ k = none) : alLookup (l₁ ++ l₂) k = alLookup l₂ k := by
  induction l₁ with
  | nil => simp
  | cons a t ih =>
    rw [alLookup_cons] at h
    by_cases ha : a.1 = k
    · simp [ha] at h
    · rw [List.cons_append, alLookup_cons, if_neg ha]
      exact ih (by simpa [ha] using h)

theorem alLookup_eq_none {κ ν : Type} [DecidableEq κ] (l : List (κ × ν)) (k : κ)
    (h : l.any (fun kv => decide (kv.1 = k)) ≠ true) : alLookup l k = none := by
  induction l with
  | nil => rfl
  | cons a t ih =>
    rw [List.any_cons] at h
    have h1 : ¬ a.1 = k := fun hk => h (by simp [hk])
    have h2 : t.any (fun kv => decide (kv.1 = k)) ≠ true := fun ht => h (by simp [ht])
    rw [alLookup_cons, if_neg h1]
    exact ih h2

theorem alLookup_alInsert_self {κ ν : Type} [DecidableEq κ] (l : List (κ × ν)) (k : κ) (v : ν) :
    alLookup (alInsert l k v) k = some v := by
  unfold alInsert
  by_cases h : l.any (fun kv => decide (kv.1 = k)) = true
  · rw [if_pos h]
    induction l with
    | nil => simp at h
    | cons a t ih =>
      by_cases ha : a.1 = k
      · simp [alLookup_cons, ha]
      · simp only [List.any_cons, Bool.or_eq_true, decide_eq_true_eq] at h
        rcases h with h | h
        · exact absurd h ha
        · simp only [List.map_cons, if_neg ha, alLookup_cons, if_neg ha]
          exact ih h
  · rw [if_neg h]
    rw [alLookup_append _ _ _ (alLookup_eq_none l k h)]
    simp [alLookup_cons]

theorem alLookup_map_replace {κ ν : Type} [DecidableEq κ] (l : List (κ × ν)) (k k' : κ) (v : ν)
    (h : k' ≠ k) :
    alLookup (l.map (fun kv => if kv.1 = k then (k, v) else kv)) k' = alLookup l k' := by
  induction l with
  | nil => rfl
  | cons a t ih =>
    by_cases ha : a.1 = k
    · simp only [List.map_cons, if_pos ha]
      rw [alLookup_cons, alLookup_cons, if_neg (fun hk : k = k' => h hk.symm),
        if_neg (fun hk : a.1 = k' => h (hk ▸ ha))]
      exact ih
    · simp only [List.map_cons, if_neg ha]
      rw [alLookup_cons, alLookup_cons]
      by_cases hk : a.1 = k'
      · rw [if_pos hk, if_pos hk]
      · rw [if_neg hk, if_neg hk]
        exact ih

theorem alLookup_append_single_ne {κ ν : Type} [DecidableEq κ] (l : List (κ × ν)) (k k' : κ)
    (v : ν) (h : k' ≠ k) : alLookup (l ++ [(k, v)]) k' = alLookup l k' := by
  induction l with
  | nil =>
    simp only [List.nil_append, alLookup_nil]
    rw [alLookup_cons, if_neg (fun hk : k = k' => h hk.symm), alLookup_nil]
  | cons a t ih =>
    rw [List.cons_append, alLookup_cons, alLookup_cons]
    by_cases hk : a.1 = k'
    · rw [if_pos hk, if_pos hk]
    · rw [if_neg hk, if_neg hk]
      exact ih

theorem alLookup_alInsert_ne {κ ν : Type} [DecidableEq κ] (l : List (κ × ν)) (k k' : κ) (v : ν)
    (h : k' ≠ k) : alLookup (alInsert l k v) k' = alLookup l k' := by
  unfold alInsert
  by_cases hc : l.any (fun kv => decide (kv.1 = k)) = true
  · rw [if_pos hc]
    exact alLookup_map_replace l k k' v h
  · rw [if_neg hc]
    exact alLookup_append_single_ne l k k' v h

theorem alKeys_alInsert_nodup {κ ν : Type} [DecidableEq κ] (l : List (κ × ν)) (k : κ) (v : ν)
    (h : (alKeys l).Nodup) : (alKeys (alInsert l k v)).Nodup := by
  unfold alInsert
  by_cases hc : l.any (fun kv => decide (kv.1 = k)) = true
  · rw [if_pos hc]
    have hkeys : alKeys (l.map (fun kv => if kv.1 = k then (k, v) else kv)) = alKeys l := by
      unfold alKeys
      rw [List.map_map]
      apply List.map_congr_left
      intro kv _
      by_cases hk : kv.1 = k
      · simp [hk]
      · simp [hk]
    rw [hkeys]
    exact h
  · rw [if_neg hc]
    unfold alKeys at h ⊢
    rw [List.map_append]
    refine List.Nodup.append h (by simp) ?_
    intro x hx hx2
    simp only [List.map_cons, List.map_nil, List.mem_singleton] at hx2
    subst hx2
    simp only [List.mem_map] at hx
    obtain ⟨kv, hkv, hfst⟩ := hx
    exact hc (List.any_eq_true.mpr ⟨kv, hkv, by simp [hfst]⟩)

/-- On an association list with distinct keys, every member is found by lookup. -/
theorem alLookup_of_mem {κ ν : Type} [DecidableEq κ] (l : List (κ × ν)) (kv : κ × ν)
    (hnd : (alKeys l).Nodup) (hmem : kv ∈ l) : alLookup l kv.1 = some kv.2 := by
  induction l with
  | nil => cases hmem
  | cons a t ih =>
    unfold alKeys at hnd
    simp only [List.map_cons, List.nodup_cons] at hnd
    rcases List.mem_cons.mp hmem with rfl | hmem'
    · rw [alLookup_cons, if_pos rfl]
    · rw [alLookup_cons]
      have hne : a.1 ≠ kv.1 := by
        intro hk
        exact hnd.1 (hk ▸ List.mem_map.mpr ⟨kv, hmem', rfl⟩)
      rw [if_neg hne]
      exact ih hnd.2 hmem'

theorem mem_of_alLookup_eq_some {κ ν : Type} [DecidableEq κ] (l : List (κ × ν)) (k : κ) (v : ν)
    (h : alLookup l k = some v) : (k, v) ∈ l := by
  unfold alLookup at h
  rcases hf : l.find? (fun kv => decide (kv.1 = k)) with _ | kv
  · rw [hf] at h; cases h
  · rw [hf] at h
    have hmem := List.mem_of_find?_eq_some hf
    have hprop := List.find?_some hf
    simp only [decide_eq_true_eq] at hprop
    obtain ⟨a, b⟩ := kv
    simp only [Option.map_some', Option.some.injEq] at h
    simp only at hprop h
    subst hprop
    subst h
    exact hmem

/-! ## TD(λ) learner lemmas -/

theorem foldl_max_spec (xs : List ℚ) : ∀ a : ℚ,
    a ≤ xs.foldl max a ∧ (∀ x ∈ xs, x ≤ xs.foldl max a) ∧
      (xs.foldl max a = a ∨ xs.foldl max a ∈ xs) := by
  induction xs with
  | nil => intro a; exact ⟨le_refl a, by simp, Or.inl rfl⟩
  | cons x t ih =>
    intro a
    have h := ih (max a x)
    rw [List.foldl_cons]
    refine ⟨le_trans (le_max_left a x) h.1, ?_, ?_⟩
    · intro y hy
      rcases List.mem_cons.mp hy with rfl | hy'
      · exact le_trans (le_max_right a y) h.1
      · exact h.2.1 y hy'
    · rcases h.2.2 with heq | hmem
      · rcases max_choice a x with hax | hax
        · exact Or.inl (heq.trans hax)
        · exact Or.inr (List.mem_cons.mpr (Or.inl (heq.trans hax)))
      · exact Or.inr (List.mem_cons.mpr (Or.inr hmem))

/-- Characterisation of `get_max_q`: it is the least upper bound of `0` and the
recorded Q-values for the state. -/
theorem get_max_q_spec (l : TDLearner) (state : State) :
    0 ≤ l.get_max_q state
    ∧ (∀ kv ∈ l.q_table, kv.1.1 = state.id → kv.2 ≤ l.get_max_q state)
    ∧ (l.get_max_q state = 0 ∨
        ∃ kv ∈ l.q_table, kv.1.1 = state.id ∧ kv.2 = l.get_max_q state) := by
  have h := foldl_max_spec
    ((l.q_table.filter (fun kv => decide (kv.1.1 = state.id))).map (fun kv => kv.2)) 0
  unfold TDLearner.get_max_q
  refine ⟨h.1, ?_, ?_⟩
  · intro kv hmem hid
    exact h.2.1 kv.2 (List.mem_map.mpr ⟨kv, List.mem_filter.mpr ⟨hmem, by simp [hid]⟩, rfl⟩)
  · rcases h.2.2 with heq | hmem
    · exact Or.inl heq
    · simp only [List.mem_map, List.mem_filter, decide_eq_true_eq] at hmem
      obtain ⟨kv, ⟨hkv, hid⟩, hval⟩ := hmem
      exact Or.inr ⟨kv, hkv, hid, hval⟩

/-- Pointwise description of a fold of insert-or-replace steps over a list of
distinct keys, where each inserted value depends on the previous value at that
key only. -/
theorem foldl_alInsert_getD {κ : Type} [DecidableEq κ] (g : ℚ → κ → ℚ) :
    ∀ (keys : List κ) (q : List (κ × ℚ)) (p : κ), keys.Nodup →
      (alLookup (keys.foldl (fun q k => alInsert q k (g ((alLookup q k).getD 0) k)) q) p).getD 0
        = if p ∈ keys then g ((alLookup q p).getD 0) p else (alLookup q p).getD 0 := by
  intro keys
  induction keys with
  | nil => intro q p _; simp
  | cons k₀ ks ih =>
    intro q p hnd
    rw [List.nodup_cons] at hnd
    rw [List.foldl_cons]
    by_cases hp : p = k₀
    · subst hp
      rw [ih _ p hnd.2, if_neg (fun hmem => hnd.1 hmem), if_pos (List.mem_cons_self p ks),
        alLookup_alInsert_self]
      rfl
    · rw [ih _ p hnd.2, alLookup_alInsert_ne _ _ _ _ hp]
      by_cases hmem : p ∈ ks
      · rw [if_pos hmem, if_pos (List.mem_cons.mpr (Or.inr hmem))]
      · rw [if_neg hmem, if_neg (fun h => (List.mem_cons.mp h).elim hp hmem)]

theorem keys_filter_nodup {κ ν : Type} (tl : List (κ × ν)) (pred : κ × ν → Bool)
    (hnd : (alKeys tl).Nodup) : ((tl.filter pred).map (fun kv => kv.1)).Nodup :=
  List.Nodup.sublist (List.Sublist.map _ (List.filter_sublist tl)) hnd

/-- Membership in the key list swept by `TDLearner::update` is exactly having a
trace above the threshold. -/
theorem mem_sweepKeys (tl : List ((String × String) × ℚ)) (p : String × String)
    (hnd : (alKeys tl).Nodup) :
    p ∈ sweepKeys tl ↔ trace_threshold < (alLookup tl p).getD 0 := by
  unfold sweepKeys
  constructor
  · intro h
    simp only [List.mem_map, List.mem_filter, decide_eq_true_eq] at h
    obtain ⟨kv, ⟨hmem, hlt⟩, hfst⟩ := h
    rw [← hfst, alLookup_of_mem tl kv hnd hmem]
    exact hlt
  · intro h
    rcases hl : alLookup tl p with _ | v
    · rw [hl] at h
      norm_num [trace_threshold] at h
    · rw [hl] at h
      exact List.mem_map.mpr
        ⟨(p, v), List.mem_filter.mpr ⟨mem_of_alLookup_eq_some tl p v hl, by simpa using h⟩, rfl⟩

/-! ## Claim C3 -/

/-- Claim C3 counterexample: the claim states that `get_max_q` returns the maximum
Q-value among the entries recorded for the state. For a learner whose only entry
for state id `s2` has Q-value `-1`, the recorded maximum is `-1`, but `get_max_q`
returns `0` (the fold starts at `0.0`). -/
theorem claim_C3_counterexample :
    recordedQs negLearner "s2" = [-1]
    ∧ negLearner.get_max_q s2 = 0
    ∧ negLearner.get_max_q s2 ≠ -1 := by decide

/-- Claim C3 (amended): for every state, `get_max_q` returns the maximum of `0.0`
and the Q-values of all `(state, action)` entries recorded for that state's id
(hence exactly `0.0` when no actions are recorded, and the recorded maximum
whenever that maximum is nonnegative). -/
theorem claim_C3 (l : TDLearner) (state : State) :
    0 ≤ l.get_max_q state
    ∧ (∀ kv ∈ l.q_table, kv.1.1 = state.id → kv.2 ≤ l.get_max_q state)
    ∧ (l.get_max_q state = 0 ∨
        ∃ kv ∈ l.q_table, kv.1.1 = state.id ∧ kv.2 = l.get_max_q state)
    ∧ ((∀ kv ∈ l.q_table, kv.1.1 ≠ state.id) → l.get_max_q state = 0) := by
  refine ⟨(get_max_q_spec l state).1, (get_max_q_spec l state).2.1,
    (get_max_q_spec l state).2.2, ?_⟩
  intro hnone
  unfold TDLearner.get_max_q
  have hfil : l.q_table.filter (fun kv => decide (kv.1.1 = state.id)) = [] := by
    rw [List.filter_eq_nil_iff]
    intro kv hkv
    simp [hnone kv hkv]
  rw [hfil]
  rfl

/-- Witness for claim C3 at a concrete learner and state. -/
theorem claim_C3_witness :
    0 ≤ negLearner.get_max_q s1
    ∧ (∀ kv ∈ negLearner.q_table, kv.1.1 = s1.id → kv.2 ≤ negLearner.get_max_q s1)
    ∧ (negLearner.get_max_q s1 = 0 ∨
        ∃ kv ∈ negLearner.q_table, kv.1.1 = s1.id ∧ kv.2 = negLearner.get_max_q s1)
    ∧ ((∀ kv ∈ negLearner.q_table, kv.1.1 ≠ s1.id) → negLearner.get_max_q s1 = 0) :=
  claim_C3 negLearner s1

/-! ## Claim C2 -/

theorem update_td_error (l : TDLearner) (state : State) (action : Action) (reward : ℚ)
    (next_state : State) (next_action : Option Action) :
    (l.update state action reward next_state next_action).2.td_error =
      reward + l.gamma * l.nextQ next_state next_action
        - (alLookup l.q_table (state.id, action.id)).getD 0 := rfl

theorem update_q_table (l : TDLearner) (state : State) (action : Action) (reward : ℚ)
    (next_state : State) (next_action : Option Action) :
    (l.update state action reward next_state next_action).1.q_table =
      sweepQ l.alpha
        (reward + l.gamma * l.nextQ next_state next_action
          - (alLookup l.q_table (state.id, action.id)).getD 0)
        (l.markTrace (state.id, action.id)) l.q_table := rfl

theorem update_states_updated (l : TDLearner) (state : State) (action : Action) (reward : ℚ)
    (next_state : State) (next_action : Option Action) :
    (l.update state action reward next_state next_action).2.states_updated =
      (sweepKeys (l.markTrace (state.id, action.id))).length := rfl

theorem update_new_q_value (l : TDLearner) (state : State) (action : Action) (reward : ℚ)
    (next_state : State) (next_action : Option Action) :
    (l.update state action reward next_state next_action).2.new_q_value =
      (alLookup (sweepQ l.alpha
        (reward + l.gamma * l.nextQ next_state next_action
          - (alLookup l.q_table (state.id, action.id)).getD 0)
        (l.markTrace (state.id, action.id)) l.q_table) (state.id, action.id)).getD 0 := rfl

theorem foldl_sweep_getD (alpha δ : ℚ) (traces : List ((String × String) × ℚ)) :
    ∀ (keys : List (String × String)) (q : List ((String × String) × ℚ)) (p : String × String),
      keys.Nodup →
      (alLookup (keys.foldl (fun q k =>
          alInsert q k ((alLookup q k).getD 0
            + alpha * δ * ((alLookup traces k).getD 0))) q) p).getD 0
        = if p ∈ keys then
            (alLookup q p).getD 0 + alpha * δ * ((alLookup traces p).getD 0)
          else (alLookup q p).getD 0 := by
  intro keys
  induction keys with
  | nil => intro q p _; simp
  | cons k₀ ks ih =>
    intro q p hnd
    rw [List.nodup_cons] at hnd
    rw [List.foldl_cons]
    by_cases hp : p = k₀
    · subst hp
      rw [ih _ p hnd.2, if_neg (fun hmem => hnd.1 hmem), if_pos (List.mem_cons_self p ks),
        alLookup_alInsert_self]
      rfl
    · rw [ih _ p hnd.2, alLookup_alInsert_ne _ _ _ _ hp]
      by_cases hmem : p ∈ ks
      · rw [if_pos hmem, if_pos (List.mem_cons.mpr (Or.inr hmem))]
      · rw [if_neg hmem, if_neg (fun h => (List.mem_cons.mp h).elim hp hmem)]

/-- Pointwise description of the trace sweep of `TDLearner::update` over a trace
table with distinct keys. -/
theorem sweepQ_getD (alpha δ : ℚ) (traces q : List ((String × String) × ℚ))
    (p : String × String) (hnd : (alKeys traces).Nodup) :
    (alLookup (sweepQ alpha δ traces q) p).getD 0 =
      if trace_threshold < (alLookup traces p).getD 0 then
        (alLookup q p).getD 0 + alpha * δ * (alLookup traces p).getD 0
      else (alLookup q p).getD 0 := by
  unfold sweepQ
  rw [foldl_sweep_getD alpha δ traces (sweepKeys traces) q p (keys_filter_nodup _ _ hnd)]
  by_cases h : trace_threshold < (alLookup traces p).getD 0
  · rw [if_pos ((mem_sweepKeys traces p hnd).mpr h), if_pos h]
  · rw [if_neg (fun hm => h ((mem_sweepKeys traces p hnd).mp hm)), if_neg h]

/-- Claim C2 counterexample: the claim's TD error formula uses "the recorded
maximum for next_state" as the next value. With a single recorded Q-value of
`-1` for the next state (and `γ = 1`), the claim's formula gives
`0 + 1 · (-1) - 0 = -1`, but `update` computes `td_error = 0`, because
`get_max_q` floors the recorded maximum at `0.0`. -/
theorem claim_C2_counterexample :
    recordedQs negLearner "s2" = [-1]
    ∧ negLearner.gamma = 1
    ∧ (negLearner.update s1 a1 0 s2 none).2.td_error = 0
    ∧ (0 : ℚ) + 1 * (-1) - negLearner.get_q s1 a1 ≠ 0 := by
  have hmax : negLearner.get_max_q s2 = 0 := by decide
  have hcur : (alLookup negLearner.q_table (s1.id, a1.id)).getD 0 = 0 := by decide
  have hgetq : negLearner.get_q s1 a1 = 0 := hcur
  refine ⟨by decide, rfl, ?_, ?_⟩
  · rw [update_td_error]
    show (0 : ℚ) + negLearner.gamma * negLearner.nextQ s2 none
      - (alLookup negLearner.q_table (s1.id, a1.id)).getD 0 = 0
    rw [hcur]
    show (0 : ℚ) + negLearner.gamma * negLearner.get_max_q s2 - 0 = 0
    rw [hmax]
    norm_num
  · rw [hgetq]
    norm_num

/-- Claim C2 (amended): for every call `update(state, action, reward, next_state,
next_action)` on a well-formed learner, with `nv` the next value (the Q-value of
`(next_state, next_action)` when `next_action` is given, otherwise the maximum of
`0.0` and the recorded Q-values for `next_state`) and `δ = reward + γ·nv − Q(state,
action)`: the returned `td_error` is `δ`; the eligibility trace of
`(state, action)` is set to exactly `1.0`; every pair whose trace then exceeds
`0.01` receives `Q += α·δ·trace` while all other Q-values are unchanged, with
`states_updated` counting exactly those pairs; and the returned `new_q_value` is
the post-update `Q(state, action) = Q(state, action) + α·δ`. -/
theorem claim_C2 (l : TDLearner) (state : State) (action : Action) (reward : ℚ)
    (next_state : State) (next_action : Option Action) (hwf : l.WF) (nv δ : ℚ)
    (hnv : nv = l.nextQ next_state next_action)
    (hδ : δ = reward + l.gamma * nv - l.get_q state action) :
    (l.update state action reward next_state next_action).2.td_error = δ
    ∧ alLookup (l.markTrace (state.id, action.id)) (state.id, action.id) = some 1
    ∧ (next_action = none →
        0 ≤ nv ∧ (∀ kv ∈ l.q_table, kv.1.1 = next_state.id → kv.2 ≤ nv)
          ∧ (nv = 0 ∨ ∃ kv ∈ l.q_table, kv.1.1 = next_state.id ∧ kv.2 = nv))
    ∧ (∀ p : String × String,
        (alLookup (l.update state action reward next_state next_action).1.q_table p).getD 0 =
          if trace_threshold < (alLookup (l.markTrace (state.id, action.id)) p).getD 0 then
            (alLookup l.q_table p).getD 0
              + l.alpha * δ * (alLookup (l.markTrace (state.id, action.id)) p).getD 0
          else (alLookup l.q_table p).getD 0)
    ∧ (l.update state action reward next_state next_action).2.states_updated =
        ((l.markTrace (state.id, action.id)).filter
          (fun kv => decide (trace_threshold < kv.2))).length
    ∧ (l.update state action reward next_state next_action).2.new_q_value =
        l.get_q state action + l.alpha * δ := by
  have hδq : δ = reward + l.gamma * l.nextQ next_state next_action
      - (alLookup l.q_table (state.id, action.id)).getD 0 := by
    rw [hδ, hnv]
    rfl
  have hT : (alKeys (l.markTrace (state.id, action.id))).Nodup :=
    alKeys_alInsert_nodup _ _ _ hwf.2
  have hTself : alLookup (l.markTrace (state.id, action.id)) (state.id, action.id) = some 1 :=
    alLookup_alInsert_self _ _ _
  have hpoint : ∀ p : String × String,
      (alLookup (l.update state action reward next_state next_action).1.q_table p).getD 0 =
        if trace_threshold < (alLookup (l.markTrace (state.id, action.id)) p).getD 0 then
          (alLookup l.q_table p).getD 0
            + l.alpha * δ * (alLookup (l.markTrace (state.id, action.id)) p).getD 0
        else (alLookup l.q_table p).getD 0 := by
    intro p
    rw [update_q_table, ← hδq]
    exact sweepQ_getD l.alpha δ _ l.q_table p hT
  refine ⟨?_, hTself, ?_, hpoint, ?_, ?_⟩
  · rw [update_td_error, ← hδq]
  · intro hnone
    subst hnone
    simp only [TDLearner.nextQ] at hnv
    subst hnv
    exact get_max_q_spec l next_state
  · rw [update_states_updated]
    unfold sweepKeys
    rw [List.length_map]
  · rw [update_new_q_value, ← hδq]
    rw [sweepQ_getD l.alpha δ _ l.q_table (state.id, action.id) hT, hTself]
    have h1 : trace_threshold < ((some (1 : ℚ)).getD 0) := by
      norm_num [trace_threshold]
    rw [if_pos h1]
    show (alLookup l.q_table (state.id, action.id)).getD 0 + l.alpha * δ * 1 = _
    rw [mul_one]
    rfl

/-- Witness for claim C2: a concrete update on a well-formed learner. -/
theorem claim_C2_witness :
    negLearner.WF
    ∧ ((1 : ℚ) = 1 + negLearner.gamma * (negLearner.nextQ s2 none) - negLearner.get_q s1 a1)
    ∧ (negLearner.update s1 a1 1 s2 none).2.td_error = 1
    ∧ (negLearner.update s1 a1 1 s2 none).2.new_q_value =
        negLearner.get_q s1 a1 + negLearner.alpha * 1 := by
  have hwf : negLearner.WF := ⟨by decide, by decide⟩
  have hmax : negLearner.get_max_q s2 = 0 := by decide
  have hgetq : negLearner.get_q s1 a1 = 0 := by decide
  have hnv : (0 : ℚ) = negLearner.nextQ s2 none := by
    show (0 : ℚ) = negLearner.get_max_q s2
    rw [hmax]
  have hδ : (1 : ℚ) = 1 + negLearner.gamma * 0 - negLearner.get_q s1 a1 := by
    rw [hgetq]
    show (1 : ℚ) = 1 + 1 * 0 - 0
    norm_num
  have h := claim_C2 negLearner s1 a1 1 s2 none hwf 0 1 hnv hδ
  refine ⟨hwf, ?_, h.1, h.2.2.2.2.2⟩
  rw [← hnv, hgetq]
  show (1 : ℚ) = 1 + 1 * 0 - 0
  norm_num

/-! ## Claim C8 -/

theorem splitCharsBar_no_bar (cs : List Char) (h : '|' ∉ cs) :
    splitCharsBar cs = (cs, none) := by
  induction cs with
  | nil => rfl
  | cons c t ih =>
    unfold splitCharsBar
    rw [if_neg (fun hc : c = '|' => h (hc ▸ List.mem_cons_self c t))]
    rw [ih (fun hm => h (List.mem_cons.mpr (Or.inr hm)))]

theorem splitCharsBar_first (pre suf : List Char) (h : '|' ∉ pre) :
    splitCharsBar (pre ++ '|' :: suf) = (pre, some suf) := by
  induction pre with
  | nil =>
    rw [List.nil_append]
    unfold splitCharsBar
    rw [if_pos rfl]
  | cons c t ih =>
    rw [List.cons_append]
    unfold splitCharsBar
    rw [if_neg (fun hc : c = '|' => h (hc ▸ List.mem_cons_self c t))]
    rw [ih (fun hm => h (List.mem_cons.mpr (Or.inr hm)))]

theorem splitCharsBar_some (cs before after : List Char)
    (h : splitCharsBar cs = (before, some after)) :
    cs = before ++ '|' :: after ∧ '|' ∉ before := by
  induction cs generalizing before with
  | nil => cases h
  | cons c t ih =>
    unfold splitCharsBar at h
    by_cases hc : c = '|'
    · rw [if_pos hc] at h
      obtain ⟨h1, h2⟩ := Prod.mk.injEq .. ▸ h
      injection h with h1 h2
      injection h2 with h2
      subst hc
      subst h2
      simp at h1
      subst h1
      exact ⟨rfl, by simp⟩
    · rw [if_neg hc] at h
      injection h with h1 h2
      rcases hr : splitCharsBar t with ⟨b', o'⟩
      rw [hr] at h1 h2
      simp only at h1 h2
      rcases o' with _ | a'
      · cases h2
      · injection h2 with h2
        subst h2
        obtain ⟨ht, hnb⟩ := ih b' hr
        subst h1
        constructor
        · rw [List.cons_append, ht]
        · intro hm
          rcases List.mem_cons.mp hm with hm | hm
          · exact hc hm.symm
          · exact hnb hm

theorem splitnBar_no_bar (s : String) (h : '|' ∉ s.data) : splitnBar s = [s] := by
  unfold splitnBar
  rw [splitCharsBar_no_bar s.data h]

theorem splitnBar_first (s : String) (pre suf : List Char)
    (hdecomp : s.data = pre ++ '|' :: suf) (h : '|' ∉ pre) :
    splitnBar s = [String.mk pre, String.mk suf] := by
  unfold splitnBar
  rw [hdecomp, splitCharsBar_first pre suf h]

theorem splitnBar_pair (s a b : String) (h : splitnBar s = [a, b]) :
    s.data = a.data ++ '|' :: b.data ∧ '|' ∉ a.data := by
  unfold splitnBar at h
  rcases hr : splitCharsBar s.data with ⟨before, o⟩
  rw [hr] at h
  rcases o with _ | after
  · simp only at h
    cases h
  · simp only at h
    injection h with h1 h2
    injection h2 with h2
    obtain ⟨hd, hnb⟩ := splitCharsBar_some s.data before after hr
    subst h1
    subst h2
    exact ⟨hd, hnb⟩

theorem splitnBar_pair_inj (s s' a b : String) (h : splitnBar s = [a, b])
    (h' : splitnBar s' = [a, b]) : s = s' := by
  obtain ⟨hd, _⟩ := splitnBar_pair s a b h
  obtain ⟨hd', _⟩ := splitnBar_pair s' a b h'
  cases s
  cases s'
  simp only at hd hd'
  rw [hd, hd']

/-- One step of the import fold. -/
theorem import_fold_step (q : List ((String × String) × ℚ)) (kv : String × ℚ)
    (p : String × String) (h : splitnBar kv.1 ≠ [p.1, p.2]) :
    alLookup ((fun q kv =>
      match splitnBar kv.1 with
      | [a, b] => alInsert q (a, b) kv.2
      | _ => q) q kv) p = alLookup q p := by
  show alLookup (match splitnBar kv.1 with
    | [a, b] => alInsert q (a, b) kv.2
    | _ => q) p = alLookup q p
  rcases hs : splitnBar kv.1 with _ | ⟨a, t⟩
  · rfl
  · rcases t with _ | ⟨b, t2⟩
    · rfl
    · rcases t2 with _ | ⟨c, t3⟩
      · apply alLookup_alInsert_ne
        intro hp
        apply h
        rw [hs]
        subst hp
        rfl
      · rfl

theorem import_fold_preserve (data : List (String × ℚ)) (q : List ((String × String) × ℚ))
    (p : String × String) (h : ∀ kv ∈ data, splitnBar kv.1 ≠ [p.1, p.2]) :
    alLookup (data.foldl (fun q kv =>
      match splitnBar kv.1 with
      | [a, b] => alInsert q (a, b) kv.2
      | _ => q) q) p = alLookup q p := by
  induction data generalizing q with
  | nil => rfl
  | cons kv t ih =>
    rw [List.foldl_cons]
    rw [ih _ (fun kv' hm => h kv' (List.mem_cons.mpr (Or.inr hm)))]
    exact import_fold_step q kv p (h kv (List.mem_cons_self kv t))

theorem import_fold_found (data : List (String × ℚ)) (q : List ((String × String) × ℚ))
    (kv : String × ℚ) (a b : String) (hnd : (data.map (fun kv => kv.1)).Nodup)
    (hmem : kv ∈ data) (hs : splitnBar kv.1 = [a, b]) :
    alLookup (data.foldl (fun q kv =>
      match splitnBar kv.1 with
      | [a, b] => alInsert q (a, b) kv.2
      | _ => q) q) (a, b) = some kv.2 := by
  induction data generalizing q with
  | nil => cases hmem
  | cons h₀ t ih =>
    simp only [List.map_cons, List.nodup_cons] at hnd
    rw [List.foldl_cons]
    rcases List.mem_cons.mp hmem with rfl | hmem'
    · rw [import_fold_preserve t _ (a, b) ?_]
      · show alLookup (match splitnBar kv.1 with
          | [a, b] => alInsert q (a, b) kv.2
          | _ => q) (a, b) = some kv.2
        rw [hs]
        exact alLookup_alInsert_self q (a, b) kv.2
      · intro kv' hm' hs'
        have : kv'.1 = kv.1 := splitnBar_pair_inj kv'.1 kv.1 a b hs' hs
        exact hnd.1 (this ▸ List.mem_map.mpr ⟨kv', hm', rfl⟩)
    · exact ih _ hnd.2 hmem'

/-- Claim C8 counterexample: the claim says keys without exactly one `|` separator
are ignored on import. The key `a|b|c` contains two separators, yet
`import_q_table` inserts the entry `(("a", "b|c"), 1)` (it splits at the first
separator only, via `splitn(2, '|')`). -/
theorem claim_C8_counterexample :
    ("a|b|c".data.count '|') = 2
    ∧ (TDLearner.import_q_table (TDLearner.new 1 1 1 1) [("a|b|c", 1)]).q_table
        = [(("a", "b|c"), 1)] := by
  constructor
  · decide
  · show alInsert [] ("a", "b|c") 1 = [(("a", "b|c"), 1)]
    decide

/-- Claim C8 (amended): `import_q_table` never fails; every entry whose key
contains at least one `|` is inserted under the pair obtained by splitting at the
first `|`; entries whose keys contain no `|` are silently skipped; and both kinds
of keys are processed independently, so no entry prevents the others from being
imported. -/
theorem claim_C8 (l : TDLearner) (data : List (String × ℚ))
    (hnd : (data.map (fun kv => kv.1)).Nodup) :
    (∀ kv ∈ data, ∀ a b : String, splitnBar kv.1 = [a, b] →
        alLookup (l.import_q_table data).q_table (a, b) = some kv.2)
    ∧ (∀ p : String × String, (∀ kv ∈ data, splitnBar kv.1 ≠ [p.1, p.2]) →
        alLookup (l.import_q_table data).q_table p = alLookup l.q_table p)
    ∧ (∀ s : String, '|' ∉ s.data → splitnBar s = [s])
    ∧ (∀ s : String, ∀ pre suf : List Char, s.data = pre ++ '|' :: suf → '|' ∉ pre →
        splitnBar s = [String.mk pre, String.mk suf]) := by
  refine ⟨?_, ?_, splitnBar_no_bar, splitnBar_first⟩
  · intro kv hmem a b hs
    exact import_fold_found data l.q_table kv a b hnd hmem hs
  · intro p h
    exact import_fold_preserve data l.q_table p h

/-- Witness for claim C8: importing `{"x|y": 2, "nobar": 3}` into a fresh learner
stores Q-value `2` at `("x", "y")` and nothing at any pair coming from `nobar`. -/
theorem claim_C8_witness :
    alLookup ((TDLearner.new 1 1 1 1).import_q_table [("x|y", 2), ("nobar", 3)]).q_table
      ("x", "y") = some 2
    ∧ alLookup ((TDLearner.new 1 1 1 1).import_q_table [("x|y", 2), ("nobar", 3)]).q_table
      ("nobar", "") = none := by
  have h := claim_C8 (TDLearner.new 1 1 1 1) [("x|y", 2), ("nobar", 3)] (by decide)
  constructor
  · exact h.1 ("x|y", 2) (List.mem_cons_self _ _) "x" "y" (by decide)
  · rw [h.2.1 ("nobar", "") (by decide)]
    decide

/-! ## Knowledge engine scoring lemmas -/

theorem interCount_le (a b : List String) : interCount a b ≤ a.length :=
  List.length_filter_le _ a

theorem length_le_unionCount (a b : List String) : a.length ≤ unionCount a b := by
  unfold unionCount
  rw [List.length_append]
  omega

theorem mkSignals_keyword_score (query : KnowledgeQuery) (p : KnowledgePattern) (cnt : ℕ) :
    (mkSignals query p cnt).keyword_score =
      min (if lowerSet p.keywords ≠ [] then
        (cnt : ℚ) / ((lowerSet p.keywords).length : ℚ) else 0) 1 := rfl

theorem mkSignals_error_code_score (query : KnowledgeQuery) (p : KnowledgePattern) (cnt : ℕ) :
    (mkSignals query p cnt).error_code_score =
      if lowerSet query.error_codes ≠ [] ∧ p.error_codes ≠ [] then
        (interCount (lowerSet query.error_codes) (lowerSet p.error_codes) : ℚ)
          / ((max 1 (lowerSet query.error_codes).length : ℕ) : ℚ)
      else 0 := rfl

theorem mkSignals_tag_score (query : KnowledgeQuery) (p : KnowledgePattern) (cnt : ℕ) :
    (mkSignals query p cnt).tag_score =
      if lowerSet query.tags ≠ [] ∧ p.tags ≠ [] then
        if 0 < unionCount (lowerSet query.tags) (lowerSet p.tags) then
          (interCount (lowerSet query.tags) (lowerSet p.tags) : ℚ)
            / ((unionCount (lowerSet query.tags) (lowerSet p.tags)) : ℚ)
        else 0
      else 0 := rfl

theorem mkSignals_path_score (query : KnowledgeQuery) (p : KnowledgePattern) (cnt : ℕ) :
    (mkSignals query p cnt).path_score =
      match query.file_path with
      | some fp =>
        if p.path_patterns.any (fun pp => strContains (lowerStr fp) (lowerStr pp)) then (1 : ℚ)
        else 0
      | none => 0 := rfl

theorem mkSignals_bounds (query : KnowledgeQuery) (p : KnowledgePattern) (cnt : ℕ) :
    (0 ≤ (mkSignals query p cnt).keyword_score ∧ (mkSignals query p cnt).keyword_score ≤ 1)
    ∧ (0 ≤ (mkSignals query p cnt).error_code_score
        ∧ (mkSignals query p cnt).error_code_score ≤ 1)
    ∧ (0 ≤ (mkSignals query p cnt).tag_score ∧ (mkSignals query p cnt).tag_score ≤ 1)
    ∧ (0 ≤ (mkSignals query p cnt).path_score ∧ (mkSignals query p cnt).path_score ≤ 1) := by
  refine ⟨⟨?_, ?_⟩, ⟨?_, ?_⟩, ⟨?_, ?_⟩, ⟨?_, ?_⟩⟩
  · rw [mkSignals_keyword_score]
    refine le_min ?_ zero_le_one
    split
    · positivity
    · exact le_refl (0 : ℚ)
  · rw [mkSignals_keyword_score]
    exact min_le_right _ 1
  · rw [mkSignals_error_code_score]
    split
    · positivity
    · exact le_refl (0 : ℚ)
  · rw [mkSignals_error_code_score]
    split
    · apply div_le_one_of_le₀
      · exact_mod_cast le_trans (interCount_le _ _) (le_max_right 1 _)
      · positivity
    · exact zero_le_one
  · rw [mkSignals_tag_score]
    split
    · split
      · positivity
      · exact le_refl (0 : ℚ)
    · exact le_refl (0 : ℚ)
  · rw [mkSignals_tag_score]
    split
    · split
      · apply div_le_one_of_le₀
        · exact_mod_cast le_trans (interCount_le _ _) (length_le_unionCount _ _)
        · positivity
      · exact zero_le_one
    · exact zero_le_one
  · rw [mkSignals_path_score]
    rcases query.file_path with _ | fp
    · show (0 : ℚ) ≤ 0
      exact le_refl (0 : ℚ)
    · show (0 : ℚ) ≤ if (p.path_patterns.any fun pp =>
        strContains (lowerStr fp) (lowerStr pp)) = true then (1 : ℚ) else 0
      split
      · exact zero_le_one
      · exact le_refl (0 : ℚ)
  · rw [mkSignals_path_score]
    rcases query.file_path with _ | fp
    · show (0 : ℚ) ≤ 1
      exact zero_le_one
    · show (if (p.path_patterns.any fun pp =>
        strContains (lowerStr fp) (lowerStr pp)) = true then (1 : ℚ) else 0) ≤ 1
      split
      · exact le_refl (1 : ℚ)
      · exact zero_le_one

/-- The combined weighted score lies in `[0, 1]` when the priority does. -/
theorem combined_score_bounds (k e t p pr : ℚ)
    (hk : 0 ≤ k ∧ k ≤ 1) (he : 0 ≤ e ∧ e ≤ 1) (ht : 0 ≤ t ∧ t ≤ 1) (hp : 0 ≤ p ∧ p ≤ 1)
    (hpr : 0 ≤ pr ∧ pr ≤ 1) :
    0 ≤ (k * (2/5) + e * (1/4) + t * (1/5) + p * (3/20)) * pr
    ∧ (k * (2/5) + e * (1/4) + t * (1/5) + p * (3/20)) * pr ≤ 1 := by
  have hinner0 : 0 ≤ k * (2/5) + e * (1/4) + t * (1/5) + p * (3/20) := by
    have h1 : 0 ≤ k * (2/5) := mul_nonneg hk.1 (by norm_num)
    have h2 : 0 ≤ e * (1/4) := mul_nonneg he.1 (by norm_num)
    have h3 : 0 ≤ t * (1/5) := mul_nonneg ht.1 (by norm_num)
    have h4 : 0 ≤ p * (3/20) := mul_nonneg hp.1 (by norm_num)
    linarith
  constructor
  · exact mul_nonneg hinner0 hpr.1
  · have hinner : k * (2/5) + e * (1/4) + t * (1/5) + p * (3/20) ≤ 1 := by nlinarith
    calc (k * (2/5) + e * (1/4) + t * (1/5) + p * (3/20)) * pr
        ≤ 1 * 1 := mul_le_mul hinner hpr.2 hpr.1 zero_le_one
      _ = 1 := one_mul 1

/-! ## Sorting lemmas -/

theorem insertByScore_perm (m : PatternMatch) (l : List PatternMatch) :
    (insertByScore m l).Perm (m :: l) := by
  induction l with
  | nil => exact List.Perm.refl _
  | cons b t ih =>
    unfold insertByScore
    by_cases hle : b.score ≤ m.score
    · rw [if_pos hle]
    · rw [if_neg hle]
      exact (ih.cons b).trans (List.Perm.swap m b t)

theorem sortByScoreDesc_perm (l : List PatternMatch) : (sortByScoreDesc l).Perm l := by
  induction l with
  | nil => exact List.Perm.refl _
  | cons a t ih =>
    unfold sortByScoreDesc
    exact (insertByScore_perm a (sortByScoreDesc t)).trans (ih.cons a)

theorem insertByScore_sorted (m : PatternMatch) (l : List PatternMatch)
    (h : l.Pairwise (fun a b => b.score ≤ a.score)) :
    (insertByScore m l).Pairwise (fun a b => b.score ≤ a.score) := by
  induction l with
  | nil => exact List.pairwise_singleton _ m
  | cons b t ih =>
    rw [List.pairwise_cons] at h
    unfold insertByScore
    by_cases hle : b.score ≤ m.score
    · rw [if_pos hle]
      rw [List.pairwise_cons]
      refine ⟨?_, List.pairwise_cons.mpr h⟩
      intro x hx
      rcases List.mem_cons.mp hx with rfl | hx'
      · exact hle
      · exact le_trans (h.1 x hx') hle
    · rw [if_neg hle]
      rw [List.pairwise_cons]
      refine ⟨?_, ih h.2⟩
      intro x hx
      rcases List.mem_cons.mp ((insertByScore_perm m t).mem_iff.mp hx) with rfl | hx'
      · exact le_of_lt (lt_of_not_ge hle)
      · exact h.1 x hx'

theorem sortByScoreDesc_sorted (l : List PatternMatch) :
    (sortByScoreDesc l).Pairwise (fun a b => b.score ≤ a.score) := by
  induction l with
  | nil => exact List.Pairwise.nil
  | cons a t ih =>
    unfold sortByScoreDesc
    exact insertByScore_sorted a (sortByScoreDesc t) ih

/-- Two lists that are permutations of each other, both sorted by score
descending, with pairwise distinct scores, are equal. -/
theorem sorted_perm_distinct_eq :
    ∀ (l₁ l₂ : List PatternMatch), l₁.Perm l₂ →
      l₁.Pairwise (fun a b => b.score ≤ a.score) →
      l₂.Pairwise (fun a b => b.score ≤ a.score) →
      l₁.Pairwise (fun a b => a.score ≠ b.score) → l₁ = l₂ := by
  intro l₁
  induction l₁ with
  | nil =>
    intro l₂ hp _ _ _
    exact (hp.symm.eq_nil).symm
  | cons a t₁ ih =>
    intro l₂ hp hs₁ hs₂ hd
    rcases l₂ with _ | ⟨b, t₂⟩
    · exact absurd hp.eq_nil (by simp)
    · rw [List.pairwise_cons] at hs₁ hs₂ hd
      have hab : a = b := by
        by_contra hne
        have hamem : a ∈ b :: t₂ := hp.mem_iff.mp (List.mem_cons_self a t₁)
        have hbmem : b ∈ a :: t₁ := hp.symm.mem_iff.mp (List.mem_cons_self b t₂)
        have ha2 : a ∈ t₂ := (List.mem_cons.mp hamem).resolve_left hne
        have hb1 : b ∈ t₁ := (List.mem_cons.mp hbmem).resolve_left (fun h => hne h.symm)
        have h1 : b.score ≤ a.score := hs₁.1 b hb1
        have h2 : a.score ≤ b.score := hs₂.1 a ha2
        exact hd.1 b hb1 (le_antisymm h2 h1)
      subst hab
      have htail : t₁.Perm t₂ := hp.cons_inv
      rw [ih t₂ htail hs₁.2 hs₂.2 hd.2]

/-! ## Claim C1 -/

/-- Claim C1: `match_patterns` returns at most `top_k` matches; provided every
pattern's priority lies in `[0, 1]`, every returned score lies in `(0, 1]` — in
particular zero-score matches are dropped — and each returned match's score is
the weighted combination `(0.40·keyword + 0.25·error + 0.20·tag + 0.15·path) ×
priority` of its own signals and its pattern's priority. -/
theorem claim_C1 (patterns : List KnowledgePattern) (query : KnowledgeQuery)
    (top_k : ℕ) (order : List ℕ) (horder : ∀ i ∈ order, i < patterns.length) :
    (match_patterns patterns query top_k order).length ≤ top_k
    ∧ ((∀ p ∈ patterns, 0 ≤ p.priority ∧ p.priority ≤ 1) →
        ∀ m ∈ match_patterns patterns query top_k order,
          (0 < m.score ∧ m.score ≤ 1)
          ∧ ∃ i, i < patterns.length
              ∧ m.pattern_id = (patterns.getD i default).id
              ∧ m.score = (m.signals.keyword_score * (2/5)
                  + m.signals.error_code_score * (1/4)
                  + m.signals.tag_score * (1/5) + m.signals.path_score * (3/20))
                  * (patterns.getD i default).priority) := by
  constructor
  · exact List.length_take_le top_k _
  · intro hpr m hm
    have hm1 : m ∈ sortByScoreDesc (computeMatches patterns query order) :=
      List.mem_of_mem_take hm
    have hm2 : m ∈ computeMatches patterns query order :=
      (sortByScoreDesc_perm _).mem_iff.mp hm1
    unfold computeMatches at hm2
    rw [List.mem_filter] at hm2
    obtain ⟨hmap, hpos⟩ := hm2
    rw [List.mem_map] at hmap
    obtain ⟨i, hi, hmk⟩ := hmap
    have hilt : i < patterns.length := horder i hi
    have hscorepos : 0 < m.score := by simpa using hpos
    have hmem : patterns.getD i default ∈ patterns := by
      rw [List.getD_eq_getElem _ _ hilt]
      exact List.getElem_mem hilt
    have hprio := hpr _ hmem
    have hsig := mkSignals_bounds query (patterns.getD i default)
      (keywordMatchCount patterns query i)
    have hsigeq : m.signals = mkSignals query (patterns.getD i default)
        (keywordMatchCount patterns query i) := by
      rw [← hmk]
      rfl
    have hscoreeq : m.score = (m.signals.keyword_score * (2/5)
        + m.signals.error_code_score * (1/4)
        + m.signals.tag_score * (1/5) + m.signals.path_score * (3/20))
        * (patterns.getD i default).priority := by
      rw [hsigeq, ← hmk]
      rfl
    have hbounds := combined_score_bounds
      (mkSignals query (patterns.getD i default) (keywordMatchCount patterns query i)).keyword_score
      (mkSignals query (patterns.getD i default) (keywordMatchCount patterns query i)).error_code_score
      (mkSignals query (patterns.getD i default) (keywordMatchCount patterns query i)).tag_score
      (mkSignals query (patterns.getD i default) (keywordMatchCount patterns query i)).path_score
      (patterns.getD i default).priority
      hsig.1 hsig.2.1 hsig.2.2.1 hsig.2.2.2 hprio
    refine ⟨⟨hscorepos, ?_⟩, i, hilt, ?_, hscoreeq⟩
    · rw [hscoreeq, hsigeq]
      exact hbounds.2
    · rw [← hmk]
      rfl

/-- Witness for claim C1 at a concrete engine and query. -/
theorem claim_C1_witness :
    (match_patterns tiePatterns tieQuery 1 [0, 1]).length ≤ 1
    ∧ ((∀ p ∈ tiePatterns, 0 ≤ p.priority ∧ p.priority ≤ 1) →
        ∀ m ∈ match_patterns tiePatterns tieQuery 1 [0, 1],
          (0 < m.score ∧ m.score ≤ 1)
          ∧ ∃ i, i < tiePatterns.length
              ∧ m.pattern_id = (tiePatterns.getD i default).id
              ∧ m.score = (m.signals.keyword_score * (2/5)
                  + m.signals.error_code_score * (1/4)
                  + m.signals.tag_score * (1/5) + m.signals.path_score * (3/20))
                  * (tiePatterns.getD i default).priority) :=
  claim_C1 tiePatterns tieQuery 1 [0, 1] (by decide)

/-- Unfolding lemma for `mkMatch`. -/
theorem mkMatch_eq (patterns : List KnowledgePattern) (query : KnowledgeQuery) (idx : ℕ) :
    mkMatch patterns query idx =
      ⟨(patterns.getD idx default).id,
       ((mkSignals query (patterns.getD idx default)
            (keywordMatchCount patterns query idx)).keyword_score * (2/5)
         + (mkSignals query (patterns.getD idx default)
            (keywordMatchCount patterns query idx)).error_code_score * (1/4)
         + (mkSignals query (patterns.getD idx default)
            (keywordMatchCount patterns query idx)).tag_score * (1/5)
         + (mkSignals query (patterns.getD idx default)
            (keywordMatchCount patterns query idx)).path_score * (3/20))
         * (patterns.getD idx default).priority,
       mkSignals query (patterns.getD idx default) (keywordMatchCount patterns query idx),
       keywordMatchCount patterns query idx⟩ := rfl

/-! ## Claim C9 -/

/-- Claim C9 counterexample: the `pattern_scores` map of `match_patterns` is a
`HashMap` with a randomly seeded hasher, so two engines built from the same
pattern list may iterate its keys in different orders. With two identical
patterns (whose combined scores tie), the two possible iteration orders of the
key set `{0, 1}` produce different result lists — `[p1, p2]` versus `[p2, p1]` —
so equal inputs do not guarantee identical outputs. -/
theorem claim_C9_counterexample :
    match_patterns tiePatterns tieQuery 2 [0, 1] ≠ match_patterns tiePatterns tieQuery 2 [1, 0]
    ∧ ([0, 1] : List ℕ).Perm (nonzeroKeys tiePatterns tieQuery)
    ∧ ([1, 0] : List ℕ).Perm (nonzeroKeys tiePatterns tieQuery) := by
  have hsig : mkSignals tieQuery ⟨"p1", ["a"], [], [], [], 1, ""⟩ 1 = ⟨1, 0, 0, 0⟩ := by
    unfold mkSignals
    norm_num [lowerSet, lowerStr, tieQuery]
  have hsig2 : mkSignals tieQuery ⟨"p2", ["a"], [], [], [], 1, ""⟩ 1 = ⟨1, 0, 0, 0⟩ := by
    unfold mkSignals
    norm_num [lowerSet, lowerStr, tieQuery]
  have hM0 : mkMatch tiePatterns tieQuery 0 = ⟨"p1", 2/5, ⟨1, 0, 0, 0⟩, 1⟩ := by
    rw [mkMatch_eq,
      show tiePatterns.getD 0 default = ⟨"p1", ["a"], [], [], [], 1, ""⟩ from by decide,
      show keywordMatchCount tiePatterns tieQuery 0 = 1 from by decide, hsig]
    show PatternMatch.mk "p1" ((1 * (2/5) + 0 * (1/4) + 0 * (1/5) + 0 * (3/20)) * 1) ⟨1, 0, 0, 0⟩ 1
      = ⟨"p1", 2/5, ⟨1, 0, 0, 0⟩, 1⟩
    norm_num
  have hM1 : mkMatch tiePatterns tieQuery 1 = ⟨"p2", 2/5, ⟨1, 0, 0, 0⟩, 1⟩ := by
    rw [mkMatch_eq,
      show tiePatterns.getD 1 default = ⟨"p2", ["a"], [], [], [], 1, ""⟩ from by decide,
      show keywordMatchCount tiePatterns tieQuery 1 = 1 from by decide, hsig2]
    show PatternMatch.mk "p2" ((1 * (2/5) + 0 * (1/4) + 0 * (1/5) + 0 * (3/20)) * 1) ⟨1, 0, 0, 0⟩ 1
      = ⟨"p2", 2/5, ⟨1, 0, 0, 0⟩, 1⟩
    norm_num
  have hposdec : (decide ((0 : ℚ) < 2/5)) = true := decide_eq_true (by norm_num)
  have hCM1 : computeMatches tiePatterns tieQuery [0, 1] =
      [⟨"p1", 2/5, ⟨1, 0, 0, 0⟩, 1⟩, ⟨"p2", 2/5, ⟨1, 0, 0, 0⟩, 1⟩] := by
    unfold computeMatches
    rw [List.map_cons, List.map_cons, List.map_nil, hM0, hM1]
    rw [List.filter_cons, List.filter_cons, List.filter_nil]
    simp only [hposdec, if_true]
  have hCM2 : computeMatches tiePatterns tieQuery [1, 0] =
      [⟨"p2", 2/5, ⟨1, 0, 0, 0⟩, 1⟩, ⟨"p1", 2/5, ⟨1, 0, 0, 0⟩, 1⟩] := by
    unfold computeMatches
    rw [List.map_cons, List.map_cons, List.map_nil, hM0, hM1]
    rw [List.filter_cons, List.filter_cons, List.filter_nil]
    simp only [hposdec, if_true]
  have hsorteq : ∀ x y : PatternMatch, x.score = 2/5 → y.score = 2/5 →
      sortByScoreDesc [x, y] = [x, y] := by
    intro x y hx hy
    show insertByScore x (insertByScore y []) = [x, y]
    show insertByScore x [y] = [x, y]
    unfold insertByScore
    rw [if_pos (by rw [hx, hy])]
  constructor
  · unfold match_patterns
    rw [hCM1, hCM2, hsorteq _ _ rfl rfl, hsorteq _ _ rfl rfl]
    intro h
    exact absurd (congrArg PatternMatch.pattern_id (List.head_eq_of_cons_eq
      ((List.take_succ_cons ..) ▸ (List.take_succ_cons ..) ▸ h))) (by decide)
  · constructor
    · rw [show nonzeroKeys tiePatterns tieQuery = [0, 1] from by decide]
    · rw [show nonzeroKeys tiePatterns tieQuery = [0, 1] from by decide]
      exact List.Perm.swap 0 1 []

/-- Claim C9 (amended): for a fixed pattern list and query, the multiset of
matches is independent of the `HashMap` iteration order, the output is sorted by
score descending, and — whenever the computed combined scores are pairwise
distinct — any two iteration orders of the nonzero-count key set (hence any two
engines built from the same pattern list) return identical result lists. Ties may
be returned in either order, because the hash iteration order is random. -/
theorem claim_C9 (patterns : List KnowledgePattern) (query : KnowledgeQuery) (top_k : ℕ)
    (o₁ o₂ : List ℕ)
    (h₁ : o₁.Perm (nonzeroKeys patterns query)) (h₂ : o₂.Perm (nonzeroKeys patterns query))
    (hd : (computeMatches patterns query o₁).Pairwise (fun a b => a.score ≠ b.score)) :
    match_patterns patterns query top_k o₁ = match_patterns patterns query top_k o₂ := by
  have horder : o₁.Perm o₂ := h₁.trans h₂.symm
  have hcm : (computeMatches patterns query o₁).Perm (computeMatches patterns query o₂) := by
    unfold computeMatches
    exact (horder.map _).filter _
  have hsymm : Symmetric (fun a b : PatternMatch => a.score ≠ b.score) := by
    intro a b h heq
    exact h heq.symm
  unfold match_patterns
  rw [sorted_perm_distinct_eq (sortByScoreDesc (computeMatches patterns query o₁))
    (sortByScoreDesc (computeMatches patterns query o₂))
    (((sortByScoreDesc_perm _).trans hcm).trans (sortByScoreDesc_perm _).symm)
    (sortByScoreDesc_sorted _) (sortByScoreDesc_sorted _)
    (((sortByScoreDesc_perm _).pairwise_iff (fun h => hsymm h)).mpr hd)]

/-- Witness for claim C9: a single pattern has a single (hence pairwise-distinct)
computed score, and the identity permutation of the key set `{0}` yields equal
results. -/
theorem claim_C9_witness :
    match_patterns onePattern tieQuery 1 [0] = match_patterns onePattern tieQuery 1 [0] := by
  have hperm : ([0] : List ℕ).Perm (nonzeroKeys onePattern tieQuery) := by
    rw [show nonzeroKeys onePattern tieQuery = [0] from by decide]
  have hd : (computeMatches onePattern tieQuery [0]).Pairwise
      (fun a b => a.score ≠ b.score) := by
    have hsub : (computeMatches onePattern tieQuery [0]).Sublist
        ([0].map (fun idx => mkMatch onePattern tieQuery idx)) := by
      unfold computeMatches
      exact List.filter_sublist _
    refine List.Pairwise.sublist hsub ?_
    rw [List.map_cons, List.map_nil]
    exact List.pairwise_singleton _ _
  exact claim_C9 onePattern tieQuery 1 [0] [0] hperm hperm hd

/-! ## Cache lemmas -/

theorem length_alInsert_le {κ ν : Type} [DecidableEq κ] (l : List (κ × ν)) (k : κ) (v : ν) :
    (alInsert l k v).length ≤ l.length + 1 := by
  unfold alInsert
  split
  · rw [List.length_map]
    omega
  · rw [List.length_append]
    simp

theorem mem_alInsert_of_ne {κ ν : Type} [DecidableEq κ] (l : List (κ × ν)) (k : κ) (v : ν)
    (kv : κ × ν) (h : kv.1 ≠ k) (hm : kv ∈ l) : kv ∈ alInsert l k v := by
  unfold alInsert
  split
  · exact List.mem_map.mpr ⟨kv, hm, by rw [if_neg h]⟩
  · exact List.mem_append_left _ hm

theorem mem_alInsert_elim {κ ν : Type} [DecidableEq κ] (l : List (κ × ν)) (k : κ) (v : ν)
    (kv : κ × ν) (h : kv ∈ alInsert l k v) : kv = (k, v) ∨ kv ∈ l := by
  unfold alInsert at h
  rcases (by assumption : kv ∈ _) with h
  split at h
  · rw [List.mem_map] at h
    obtain ⟨x, hx, hfx⟩ := h
    by_cases hk : x.1 = k
    · rw [if_pos hk] at hfx
      exact Or.inl hfx.symm
    · rw [if_neg hk] at hfx
      exact Or.inr (hfx ▸ hx)
  · rcases List.mem_append.mp h with h | h
    · exact Or.inr h
    · exact Or.inl (List.mem_singleton.mp h)

theorem eq_of_mem_keys_nodup {κ ν : Type} (l : List (κ × ν)) (kv₁ kv₂ : κ × ν)
    (hnd : (alKeys l).Nodup) (h₁ : kv₁ ∈ l) (h₂ : kv₂ ∈ l) (hk : kv₁.1 = kv₂.1) :
    kv₁ = kv₂ := by
  induction l with
  | nil => cases h₁
  | cons a t ih =>
    unfold alKeys at hnd
    simp only [List.map_cons, List.nodup_cons] at hnd
    rcases List.mem_cons.mp h₁ with rfl | h₁'
    · rcases List.mem_cons.mp h₂ with rfl | h₂'
      · rfl
      · exact absurd (hk ▸ List.mem_map.mpr ⟨kv₂, h₂', rfl⟩) hnd.1
    · rcases List.mem_cons.mp h₂ with rfl | h₂'
      · exact absurd (hk ▸ List.mem_map.mpr ⟨kv₁, h₁', rfl⟩) (fun hh => hnd.1 hh)
      · exact ih hnd.2 h₁' h₂'

theorem minByCreated_cons (x y : String × CacheEntry) (t : List (String × CacheEntry)) :
    minByCreated x (y :: t) =
      if y.2.created_at < x.2.created_at then minByCreated y t else minByCreated x t := rfl

theorem minByCreated_mem (x : String × CacheEntry) (l : List (String × CacheEntry)) :
    minByCreated x l ∈ x :: l := by
  induction l generalizing x with
  | nil => exact List.mem_singleton_self x
  | cons y t ih =>
    rw [minByCreated_cons]
    split
    · exact List.mem_cons.mpr (Or.inr (ih y))
    · rcases List.mem_cons.mp (ih x) with h | h
      · exact List.mem_cons.mpr (Or.inl h)
      · exact List.mem_cons.mpr (Or.inr (List.mem_cons.mpr (Or.inr h)))

theorem minByCreated_le (x : String × CacheEntry) (l : List (String × CacheEntry)) :
    ∀ z ∈ x :: l, (minByCreated x l).2.created_at ≤ z.2.created_at := by
  induction l generalizing x with
  | nil =>
    intro z hz
    rw [List.mem_singleton.mp hz]
    exact le_refl _
  | cons y t ih =>
    intro z hz
    rw [minByCreated_cons]
    by_cases hlt : y.2.created_at < x.2.created_at
    · rw [if_pos hlt]
      rcases List.mem_cons.mp hz with heq | hz'
      · subst heq
        exact le_trans (ih y y (List.mem_cons_self y t)) (le_of_lt hlt)
      · exact ih y z hz'
    · rw [if_neg hlt]
      rcases List.mem_cons.mp hz with heq | hz'
      · subst heq
        exact ih z z (List.mem_cons_self z t)
      · rcases List.mem_cons.mp hz' with heq2 | hz2
        · subst heq2
          exact le_trans (ih x x (List.mem_cons_self x t)) (le_of_not_lt hlt)
        · exact ih x z (List.mem_cons.mpr (Or.inr hz2))

/-- Everything in the post-eviction cache was in the cache. -/
theorem evictForInsert_subset (max_size now : ℕ) (cache : List (String × CacheEntry))
    (kv : String × CacheEntry) (h : kv ∈ evictForInsert max_size now cache) : kv ∈ cache := by
  unfold evictForInsert at h
  split at h
  · split at h
    · rcases hc : cache.filter (fun kv => !(kv.2.is_expired now)) with _ | ⟨x, xs⟩
      · rw [hc] at h
        cases h
      · rw [hc] at h
        exact List.mem_of_mem_filter (hc ▸ List.mem_of_mem_eraseP h)
    · exact List.mem_of_mem_filter h
  · exact h

/-- The post-eviction cache is strictly below capacity. -/
theorem evictForInsert_length (max_size now : ℕ) (cache : List (String × CacheEntry))
    (hcap : cache.length ≤ max_size) (hpos : 1 ≤ max_size) :
    (evictForInsert max_size now cache).length < max_size := by
  unfold evictForInsert
  split
  · next hfull =>
    split
    · next hstill =>
      rcases hc : cache.filter (fun kv => !(kv.2.is_expired now)) with _ | ⟨x, xs⟩
      · rw [hc] at hstill
        simp at hstill
        subst hstill
        omega
      · rw [hc]
        have hmin := minByCreated_mem x xs
        have hlen : ((x :: xs).eraseP
            (fun kv => decide (kv.1 = (minByCreated x xs).1))).length = (x :: xs).length - 1 :=
          List.length_eraseP_of_mem hmin (by simp)
        rw [hlen]
        have hfle : (x :: xs).length ≤ cache.length := hc ▸ List.length_filter_le _ cache
        have hx : 0 < (x :: xs).length := by simp
        omega
    · next hstill =>
      omega
  · next hfull =>
    omega

/-- Any entry dropped by the eviction block is either expired or has minimal
`created_at` among the unexpired entries; at most one unexpired entry is
dropped; every expired entry is dropped when the cache is full; and nothing is
dropped when the cache is below capacity. -/
theorem evictForInsert_dropped (max_size now : ℕ) (cache : List (String × CacheEntry))
    (hnd : (alKeys cache).Nodup) (hcap : cache.length ≤ max_size) :
    (¬ max_size ≤ cache.length → evictForInsert max_size now cache = cache)
    ∧ (∀ kv ∈ cache, kv ∉ evictForInsert max_size now cache →
        kv.2.is_expired now = true
        ∨ (∀ kv' ∈ cache, kv'.2.is_expired now = false →
            kv.2.created_at ≤ kv'.2.created_at))
    ∧ (∀ kv₁ ∈ cache, ∀ kv₂ ∈ cache, kv₁.1 ≠ kv₂.1 →
        kv₁ ∉ evictForInsert max_size now cache →
        kv₂ ∉ evictForInsert max_size now cache →
        kv₁.2.is_expired now = true ∨ kv₂.2.is_expired now = true)
    ∧ (max_size ≤ cache.length → ∀ kv ∈ cache, kv.2.is_expired now = true →
        kv ∉ evictForInsert max_size now cache) := by
  by_cases hfull : max_size ≤ cache.length
  · by_cases hstill : max_size ≤ (cache.filter (fun kv => !(kv.2.is_expired now))).length
    · have hlenf : (cache.filter (fun kv => !(kv.2.is_expired now))).length = cache.length := by
        have h1 := List.length_filter_le (fun kv => !(kv.2.is_expired now)) cache
        omega
      have hfeq : cache.filter (fun kv => !(kv.2.is_expired now)) = cache :=
        (List.filter_sublist cache).eq_of_length hlenf
      have hnoexp : ∀ kv ∈ cache, kv.2.is_expired now = false := by
        intro kv hkv
        simpa using List.filter_eq_self.mp hfeq kv hkv
      rcases hfil : cache.filter (fun kv => !(kv.2.is_expired now)) with _ | ⟨x, xs⟩
      · have hcnil : cache = [] := by rw [← hfeq, hfil]
        refine ⟨fun h => absurd hfull h, ?_, ?_, ?_⟩
        · intro kv hkv
          rw [hcnil] at hkv
          cases hkv
        · intro kv hkv
          rw [hcnil] at hkv
          cases hkv
        · intro _ kv hkv
          rw [hcnil] at hkv
          cases hkv
      · have hev : evictForInsert max_size now cache =
            (x :: xs).eraseP (fun kv => decide (kv.1 = (minByCreated x xs).1)) := by
          unfold evictForInsert
          rw [if_pos hfull, if_pos hstill, hfil]
        have hminmem : minByCreated x xs ∈ cache := by
          rw [← hfeq, hfil]
          exact minByCreated_mem x xs
        have hminle : ∀ kv' ∈ cache, (minByCreated x xs).2.created_at ≤ kv'.2.created_at := by
          intro kv' hkv'
          exact minByCreated_le x xs kv' (by rw [← hfil, hfeq]; exact hkv')
        have hsurvive : ∀ kv ∈ cache, kv ≠ minByCreated x xs →
            kv ∈ evictForInsert max_size now cache := by
          intro kv hkv hne
          rw [hev]
          apply (List.mem_eraseP_of_neg ?_).mpr (by rw [← hfil, hfeq]; exact hkv)
          simp only [decide_eq_true_eq]
          intro hkeq
          exact hne (eq_of_mem_keys_nodup cache kv (minByCreated x xs) hnd hkv hminmem hkeq)
        refine ⟨fun h => absurd hfull h, ?_, ?_, ?_⟩
        · intro kv hkv hkv2
          right
          intro kv' hkv' _
          have hkvmin : kv = minByCreated x xs := by
            by_contra hne
            exact hkv2 (hsurvive kv hkv hne)
          rw [hkvmin]
          exact hminle kv' hkv'
        · intro kv₁ h₁ kv₂ h₂ hk12 hd₁ hd₂
          exfalso
          have hm₁ : kv₁ = minByCreated x xs := by
            by_contra hne
            exact hd₁ (hsurvive kv₁ h₁ hne)
          have hm₂ : kv₂ = minByCreated x xs := by
            by_contra hne
            exact hd₂ (hsurvive kv₂ h₂ hne)
          exact hk12 (hm₁ ▸ hm₂ ▸ rfl)
        · intro _ kv hkv hexp
          rw [hnoexp kv hkv] at hexp
          cases hexp
    · have hev : evictForInsert max_size now cache =
          cache.filter (fun kv => !(kv.2.is_expired now)) := by
        unfold evictForInsert
        rw [if_pos hfull, if_neg hstill]
      refine ⟨fun h => absurd hfull h, ?_, ?_, ?_⟩
      · intro kv hkv hkv2
        left
        by_contra hne
        apply hkv2
        rw [hev]
        exact List.mem_filter.mpr ⟨hkv, by simp [Bool.eq_false_iff.mpr hne]⟩
      · intro kv₁ h₁ kv₂ h₂ _ hd₁ hd₂
        left
        by_contra hne
        apply hd₁
        rw [hev]
        exact List.mem_filter.mpr ⟨h₁, by simp [Bool.eq_false_iff.mpr hne]⟩
      · intro _ kv hkv hexp
        rw [hev]
        intro hmem
        have hpass := (List.mem_filter.mp hmem).2
        rw [hexp] at hpass
        cases hpass
  · have hev : evictForInsert max_size now cache = cache := by
      unfold evictForInsert
      rw [if_neg hfull]
    refine ⟨fun _ => hev, ?_, ?_, ?_⟩
    · intro kv hkv hkv2
      exact absurd (show kv ∈ evictForInsert max_size now cache from hev.symm ▸ hkv) hkv2
    · intro kv₁ h₁ kv₂ h₂ _ hd₁ _
      exact absurd (show kv₁ ∈ evictForInsert max_size now cache from hev.symm ▸ h₁) hd₁
    · intro h
      exact absurd h hfull

/-! ## Claim C5 -/

/-- Claim C5: on every insertion into a well-formed cache within its capacity,
the resulting cache holds at most `max_size` entries and contains the inserted
entry; below capacity nothing is evicted; every dropped entry is either expired
or the single oldest (minimal `created_at`) unexpired entry — at most one
unexpired entry is ever dropped, and at capacity all expired entries are
dropped. -/
theorem claim_C5 (max_size now : ℕ) (cache : List (String × CacheEntry)) (key : String)
    (value : List PatternMatch) (ttl : ℕ)
    (hnd : (alKeys cache).Nodup) (hcap : cache.length ≤ max_size) (hpos : 1 ≤ max_size) :
    (cache_set max_size now cache key value ttl).length ≤ max_size
    ∧ alLookup (cache_set max_size now cache key value ttl) key = some ⟨value, now, ttl⟩
    ∧ (cache.length < max_size → ∀ kv ∈ cache, kv.1 ≠ key →
        kv ∈ cache_set max_size now cache key value ttl)
    ∧ (∀ kv ∈ cache, kv.1 ≠ key → kv ∉ cache_set max_size now cache key value ttl →
        kv.2.is_expired now = true
        ∨ (∀ kv' ∈ cache, kv'.2.is_expired now = false →
            kv.2.created_at ≤ kv'.2.created_at))
    ∧ (∀ kv₁ ∈ cache, ∀ kv₂ ∈ cache, kv₁.1 ≠ kv₂.1 → kv₁.1 ≠ key → kv₂.1 ≠ key →
        kv₁ ∉ cache_set max_size now cache key value ttl →
        kv₂ ∉ cache_set max_size now cache key value ttl →
        kv₁.2.is_expired now = true ∨ kv₂.2.is_expired now = true)
    ∧ (max_size ≤ cache.length → ∀ kv ∈ cache, kv.2.is_expired now = true → kv.1 ≠ key →
        kv ∉ cache_set max_size now cache key value ttl) := by
  have hdrop := evictForInsert_dropped max_size now cache hnd hcap
  refine ⟨?_, ?_, ?_, ?_, ?_, ?_⟩
  · calc (cache_set max_size now cache key value ttl).length
        ≤ (evictForInsert max_size now cache).length + 1 := length_alInsert_le _ _ _
      _ ≤ max_size := evictForInsert_length max_size now cache hcap hpos
  · exact alLookup_alInsert_self _ _ _
  · intro hlt kv hkv hne
    unfold cache_set
    rw [hdrop.1 (by omega)]
    exact mem_alInsert_of_ne _ _ _ kv hne hkv
  · intro kv hkv hne hnot
    apply hdrop.2.1 kv hkv
    intro hmem
    exact hnot (mem_alInsert_of_ne _ _ _ kv hne hmem)
  · intro kv₁ h₁ kv₂ h₂ hk12 hk1 hk2 hd₁ hd₂
    apply hdrop.2.2.1 kv₁ h₁ kv₂ h₂ hk12
    · intro hmem
      exact hd₁ (mem_alInsert_of_ne _ _ _ kv₁ hk1 hmem)
    · intro hmem
      exact hd₂ (mem_alInsert_of_ne _ _ _ kv₂ hk2 hmem)
  · intro hfull kv hkv hexp hne hmem
    rcases mem_alInsert_elim _ _ _ kv hmem with heq | hmem'
    · exact hne (congrArg Prod.fst heq)
    · exact hdrop.2.2.2 hfull kv hkv hexp hmem'

/-- Witness for claim C5: inserting into an empty cache with the engine's
default capacity of 1000. -/
theorem claim_C5_witness :
    (cache_set 1000 0 [] "k" [] 300).length ≤ 1000
    ∧ alLookup (cache_set 1000 0 [] "k" [] 300) "k" = some ⟨[], 0, 300⟩
    ∧ (([] : List (String × CacheEntry)).length < 1000 →
        ∀ kv ∈ ([] : List (String × CacheEntry)), kv.1 ≠ "k" →
          kv ∈ cache_set 1000 0 [] "k" [] 300)
    ∧ (∀ kv ∈ ([] : List (String × CacheEntry)), kv.1 ≠ "k" →
        kv ∉ cache_set 1000 0 [] "k" [] 300 →
        kv.2.is_expired 0 = true
        ∨ (∀ kv' ∈ ([] : List (String × CacheEntry)), kv'.2.is_expired 0 = false →
            kv.2.created_at ≤ kv'.2.created_at))
    ∧ (∀ kv₁ ∈ ([] : List (String × CacheEntry)), ∀ kv₂ ∈ ([] : List (String × CacheEntry)),
        kv₁.1 ≠ kv₂.1 → kv₁.1 ≠ "k" → kv₂.1 ≠ "k" →
        kv₁ ∉ cache_set 1000 0 [] "k" [] 300 → kv₂ ∉ cache_set 1000 0 [] "k" [] 300 →
        kv₁.2.is_expired 0 = true ∨ kv₂.2.is_expired 0 = true)
    ∧ (1000 ≤ ([] : List (String × CacheEntry)).length →
        ∀ kv ∈ ([] : List (String × CacheEntry)), kv.2.is_expired 0 = true → kv.1 ≠ "k" →
          kv ∉ cache_set 1000 0 [] "k" [] 300) :=
  claim_C5 1000 0 [] "k" [] 300 (by decide) (by decide) (by decide)

/-! ## Working memory lemmas -/

theorem minByScore_mem : ∀ (l : List (ℕ × MemoryEntry)) (b : ℕ × MemoryEntry),
    minByScore l b ∈ b :: l := by
  intro l
  induction l with
  | nil => intro b; exact List.mem_singleton_self b
  | cons p ps ih =>
    intro b
    unfold minByScore
    split
    · rcases List.mem_cons.mp (ih p) with h | h
      · exact List.mem_cons.mpr (Or.inr (List.mem_cons.mpr (Or.inl h)))
      · exact List.mem_cons.mpr (Or.inr (List.mem_cons.mpr (Or.inr h)))
    · rcases List.mem_cons.mp (ih b) with h | h
      · exact List.mem_cons.mpr (Or.inl h)
      · exact List.mem_cons.mpr (Or.inr (List.mem_cons.mpr (Or.inr h)))

theorem minByScore_le : ∀ (l : List (ℕ × MemoryEntry)) (b : ℕ × MemoryEntry),
    ∀ p ∈ b :: l, evictionScore (minByScore l b).2 ≤ evictionScore p.2 := by
  intro l
  induction l with
  | nil =>
    intro b p hp
    rw [List.mem_singleton.mp hp]
    exact le_refl _
  | cons q qs ih =>
    intro b p hp
    unfold minByScore
    by_cases hlt : evictionScore q.2 < evictionScore b.2
    · rw [if_pos hlt]
      rcases List.mem_cons.mp hp with heq | hp'
      · subst heq
        exact le_trans (ih q q (List.mem_cons_self q qs)) (le_of_lt hlt)
      · rcases List.mem_cons.mp hp' with heq2 | hp2
        · subst heq2
          exact ih p p (List.mem_cons_self p qs)
        · exact ih q p (List.mem_cons.mpr (Or.inr hp2))
    · rw [if_neg hlt]
      rcases List.mem_cons.mp hp with heq | hp'
      · subst heq
        exact ih p p (List.mem_cons_self p qs)
      · rcases List.mem_cons.mp hp' with heq2 | hp2
        · subst heq2
          exact le_trans (ih b b (List.mem_cons_self b qs)) (le_of_not_lt hlt)
        · exact ih b p (List.mem_cons.mpr (Or.inr hp2))

theorem minByScore_stays : ∀ (l : List (ℕ × MemoryEntry)) (b : ℕ × MemoryEntry),
    (∀ p ∈ l, ¬ evictionScore p.2 < evictionScore b.2) → minByScore l b = b := by
  intro l
  induction l with
  | nil => intro b _; rfl
  | cons p ps ih =>
    intro b h
    unfold minByScore
    rw [if_neg (h p (List.mem_cons_self p ps))]
    exact ih b (fun q hq => h q (List.mem_cons.mpr (Or.inr hq)))

theorem mem_enumFrom_fst_lt {α : Type} : ∀ (l : List α) (n : ℕ) (x : ℕ × α),
    x ∈ List.enumFrom n l → x.1 < n + l.length := by
  intro l
  induction l with
  | nil => intro n x hx; cases hx
  | cons a t ih =>
    intro n x hx
    rcases List.mem_cons.mp hx with heq | hx'
    · subst heq
      simp
    · have := ih (n + 1) x hx'
      simp only [List.length_cons]
      omega

theorem exists_fst_mem_enumFrom {α : Type} : ∀ (l : List α) (n : ℕ) (x : α), x ∈ l →
    ∃ j, (j, x) ∈ List.enumFrom n l := by
  intro l
  induction l with
  | nil => intro n x hx; cases hx
  | cons a t ih =>
    intro n x hx
    rcases List.mem_cons.mp hx with heq | hx'
    · subst heq
      exact ⟨n, List.mem_cons_self _ _⟩
    · obtain ⟨j, hj⟩ := ih (n + 1) x hx'
      exact ⟨j, List.mem_cons.mpr (Or.inr hj)⟩

/-- On a nonempty store the eviction candidate is in bounds. -/
theorem find_eviction_candidate_lt (entries : List MemoryEntry) (h : entries ≠ []) :
    find_eviction_candidate entries < entries.length := by
  rcases entries with _ | ⟨e, es⟩
  · exact absurd rfl h
  · show (minByScore (List.enumFrom 1 es) (0, e)).1 < (e :: es).length
    rcases List.mem_cons.mp (minByScore_mem (es.enumFrom 1) (0, e)) with heq | hmem
    · rw [heq]
      simp
    · have := mem_enumFrom_fst_lt es 1 _ hmem
      simp only [List.length_cons]
      omega

/-- Single-step characterisation of `WorkingMemory::add` when it returns. -/
theorem add_step (wm : WorkingMemory) (now : ℕ) (entry : MemoryEntry)
    (wm' : WorkingMemory) (i : ℕ) (h : wm.add now entry = some (wm', i)) :
    wm'.max_capacity = wm.max_capacity
    ∧ ((¬ wm.max_capacity ≤ wm.entries.length ∧
          wm'.entries = wm.entries ++ [stampEntry now entry])
       ∨ (wm.max_capacity ≤ wm.entries.length ∧
          find_eviction_candidate wm.entries < wm.entries.length ∧
          wm'.entries = wm.entries.eraseIdx (find_eviction_candidate wm.entries)
            ++ [stampEntry now entry])) := by
  unfold WorkingMemory.add at h
  split at h
  · next hfull =>
    split at h
    · next hlt =>
      injection h with h1
      injection h1 with h1 h2
      subst h1
      exact ⟨rfl, Or.inr ⟨hfull, hlt, rfl⟩⟩
    · cases h
  · next hfull =>
    injection h with h1
    injection h1 with h1 h2
    subst h1
    exact ⟨rfl, Or.inl ⟨hfull, rfl⟩⟩

/-! ## Claim C4 -/

/-- Claim C4: a completed `add` keeps the store within its capacity (for any
sequence of `add` calls from a fresh store), the inserted entry is always
present afterwards, and anything else in the new store was already stored —
eviction never removes the entry being inserted. -/
theorem claim_C4 :
    (∀ (wm : WorkingMemory) (now : ℕ) (entry : MemoryEntry) (wm' : WorkingMemory) (i : ℕ),
      wm.entries.length ≤ wm.max_capacity → wm.add now entry = some (wm', i) →
        wm'.entries.length ≤ wm.max_capacity
        ∧ wm'.max_capacity = wm.max_capacity
        ∧ stampEntry now entry ∈ wm'.entries
        ∧ (∀ x ∈ wm'.entries, x = stampEntry now entry ∨ x ∈ wm.entries))
    ∧ (∀ (N : ℕ) (seq : List (ℕ × MemoryEntry)) (wm' : WorkingMemory),
        addAll (WorkingMemory.new N) seq = some wm' → wm'.entries.length ≤ N) := by
  have hstep : ∀ (wm : WorkingMemory) (now : ℕ) (entry : MemoryEntry)
      (wm' : WorkingMemory) (i : ℕ),
      wm.entries.length ≤ wm.max_capacity → wm.add now entry = some (wm', i) →
        wm'.entries.length ≤ wm.max_capacity
        ∧ wm'.max_capacity = wm.max_capacity
        ∧ stampEntry now entry ∈ wm'.entries
        ∧ (∀ x ∈ wm'.entries, x = stampEntry now entry ∨ x ∈ wm.entries) := by
    intro wm now entry wm' i hcap h
    obtain ⟨hmax, hcase⟩ := add_step wm now entry wm' i h
    rcases hcase with ⟨hlt, hent⟩ | ⟨hfull, hidx, hent⟩
    · refine ⟨?_, hmax, ?_, ?_⟩
      · rw [hent, List.length_append]
        simp only [List.length_singleton]
        omega
      · rw [hent]
        exact List.mem_append_right _ (List.mem_singleton_self _)
      · intro x hx
        rw [hent] at hx
        rcases List.mem_append.mp hx with hx' | hx'
        · exact Or.inr hx'
        · exact Or.inl (List.mem_singleton.mp hx')
    · have herase : (wm.entries.eraseIdx (find_eviction_candidate wm.entries)).length =
          wm.entries.length - 1 := List.length_eraseIdx_of_lt hidx
      refine ⟨?_, hmax, ?_, ?_⟩
      · rw [hent, List.length_append, herase]
        simp only [List.length_singleton]
        omega
      · rw [hent]
        exact List.mem_append_right _ (List.mem_singleton_self _)
      · intro x hx
        rw [hent] at hx
        rcases List.mem_append.mp hx with hx' | hx'
        · exact Or.inr ((List.eraseIdx_sublist _ _).mem hx')
        · exact Or.inl (List.mem_singleton.mp hx')
  refine ⟨hstep, ?_⟩
  have haux : ∀ (seq : List (ℕ × MemoryEntry)) (wm wm' : WorkingMemory),
      wm.entries.length ≤ wm.max_capacity → addAll wm seq = some wm' →
      wm'.entries.length ≤ wm'.max_capacity ∧ wm'.max_capacity = wm.max_capacity := by
    intro seq
    induction seq with
    | nil =>
      intro wm wm' hcap h
      injection h with h
      subst h
      exact ⟨hcap, rfl⟩
    | cons te rest ih =>
      intro wm wm' hcap h
      unfold addAll at h
      rcases hadd : wm.add te.1 te.2 with _ | r
      · rw [hadd] at h
        cases h
      · rw [hadd] at h
        obtain ⟨hlen, hmax, _, _⟩ := hstep wm te.1 te.2 r.1 r.2 hcap (by
          rw [hadd])
        obtain ⟨h1, h2⟩ := ih r.1 wm' (by rw [hmax]; exact hlen) h
        exact ⟨h1, h2.trans hmax⟩
  intro N seq wm' h
  obtain ⟨h1, h2⟩ := haux seq (WorkingMemory.new N) wm' (by simp [WorkingMemory.new]) h
  rw [h2] at h1
  exact h1

/-- Witness for claim C4: an `add` into an empty store of capacity 1, and the
corresponding one-step sequence. -/
theorem claim_C4_witness :
    ((WorkingMemory.new 1).add 0 mem1 =
      some (⟨[stampEntry 0 mem1], 1⟩, 0)
    ∧ (⟨[stampEntry 0 mem1], 1⟩ : WorkingMemory).entries.length ≤ 1)
    ∧ (∀ wm' : WorkingMemory, addAll (WorkingMemory.new 1) [(0, mem1)] = some wm' →
        wm'.entries.length ≤ 1) := by
  have hadd : (WorkingMemory.new 1).add 0 mem1 = some (⟨[stampEntry 0 mem1], 1⟩, 0) := by
    unfold WorkingMemory.add
    rw [if_neg (by decide : ¬ (WorkingMemory.new 1).max_capacity ≤
      (WorkingMemory.new 1).entries.length)]
    rfl
  refine ⟨⟨hadd, ?_⟩, fun wm' h => claim_C4.2 1 [(0, mem1)] wm' h⟩
  exact (claim_C4.1 (WorkingMemory.new 1) 0 mem1 ⟨[stampEntry 0 mem1], 1⟩ 0 (by decide) hadd).1

/-! ## Claim C10 -/

/-- Claim C10: with capacity at least 1 every `add` returns normally (the chosen
eviction index is always in bounds of the nonempty entry list), but on a store
constructed with capacity 0 the very first `add` reaches `Vec::remove(0)` on an
empty list — an out-of-bounds removal, i.e. a panic, modelled as `none`. -/
theorem claim_C10 :
    (∀ (wm : WorkingMemory) (now : ℕ) (entry : MemoryEntry), 1 ≤ wm.max_capacity →
      (wm.add now entry).isSome)
    ∧ (∀ (now : ℕ) (entry : MemoryEntry), (WorkingMemory.new 0).add now entry = none) := by
  constructor
  · intro wm now entry hpos
    unfold WorkingMemory.add
    by_cases hfull : wm.max_capacity ≤ wm.entries.length
    · rw [if_pos hfull]
      have hne : wm.entries ≠ [] := by
        intro h
        rw [h] at hfull
        simp at hfull
        omega
      rw [if_pos (find_eviction_candidate_lt wm.entries hne)]
      rfl
    · rw [if_neg hfull]
      rfl
  · intro now entry
    unfold WorkingMemory.add
    rw [if_pos (by decide : (WorkingMemory.new 0).max_capacity ≤
      (WorkingMemory.new 0).entries.length)]
    rw [if_neg (by decide : ¬ find_eviction_candidate (WorkingMemory.new 0).entries <
      (WorkingMemory.new 0).entries.length)]

/-- Witness for claim C10: a capacity-1 store accepts an entry; a capacity-0
store panics on the first `add`. -/
theorem claim_C10_witness :
    ((WorkingMemory.new 1).add 0 mem1).isSome
    ∧ (WorkingMemory.new 0).add 0 mem1 = none :=
  ⟨claim_C10.1 (WorkingMemory.new 1) 0 mem1 (by decide), claim_C10.2 0 mem1⟩

/-! ## Claim C6 -/

theorem add_append_eq (wm : WorkingMemory) (now : ℕ) (entry : MemoryEntry)
    (hnotfull : ¬ wm.max_capacity ≤ wm.entries.length) :
    wm.add now entry =
      some ({ wm with entries := wm.entries ++ [stampEntry now entry] }, wm.entries.length) := by
  unfold WorkingMemory.add
  rw [if_neg hnotfull]

theorem add_evict_eq (wm : WorkingMemory) (now : ℕ) (entry : MemoryEntry)
    (hfull : wm.max_capacity ≤ wm.entries.length)
    (hidx : find_eviction_candidate wm.entries < wm.entries.length) :
    wm.add now entry =
      some ({ wm with entries :=
          wm.entries.eraseIdx (find_eviction_candidate wm.entries) ++ [stampEntry now entry] },
        (wm.entries.eraseIdx (find_eviction_candidate wm.entries)).length) := by
  unfold WorkingMemory.add
  rw [if_pos hfull, if_pos hidx]

theorem addAll_cons (wm : WorkingMemory) (te : ℕ × MemoryEntry)
    (rest : List (ℕ × MemoryEntry)) (r : WorkingMemory × ℕ)
    (h : wm.add te.1 te.2 = some r) : addAll wm (te :: rest) = addAll r.1 rest := by
  show (match wm.add te.1 te.2 with
    | some r => addAll r.1 rest
    | none => none) = addAll r.1 rest
  rw [h]

/-- The eviction score of a freshly stamped entry is nonnegative when its
importance is. -/
theorem stamp_score_nonneg (t : ℕ) (m : MemoryEntry) (hm : 0 ≤ m.importance) :
    0 ≤ evictionScore (stampEntry t m) := by
  show 0 ≤ ((t : ℕ) : ℝ) * m.importance * Real.log (1 + ((1 : ℕ) : ℝ))
  exact mul_nonneg (mul_nonneg (Nat.cast_nonneg t) hm) (Real.log_nonneg (by norm_num))

/-- Claim C6: whenever `add` evicts, the removed entry is one minimising
`last_access_ms × importance × ln(1 + access_count)` over all stored entries;
and scenario B: inserting four entries with importances `0, 0.2, 0.4, 0.6` in
order into a capacity-3 store (at any nondecreasing or arbitrary clock readings)
leaves exactly 3 entries, none of which has importance `0`. -/
theorem claim_C6 :
    (∀ (wm : WorkingMemory) (now : ℕ) (entry : MemoryEntry) (wm' : WorkingMemory) (i : ℕ),
      wm.max_capacity ≤ wm.entries.length → wm.add now entry = some (wm', i) →
        ∃ j c, (j, c) ∈ wm.entries.enum
          ∧ wm'.entries = wm.entries.eraseIdx j ++ [stampEntry now entry]
          ∧ ∀ x ∈ wm.entries, evictionScore c ≤ evictionScore x)
    ∧ (∀ t₁ t₂ t₃ t₄ : ℕ, ∃ wm' : WorkingMemory,
        addAll (WorkingMemory.new 3) [(t₁, mem1), (t₂, mem2), (t₃, mem3), (t₄, mem4)] = some wm'
        ∧ wm'.entries.length = 3
        ∧ ∀ x ∈ wm'.entries, x.importance ≠ 0) := by
  constructor
  · intro wm now entry wm' i hfull h
    obtain ⟨hmax, hcase⟩ := add_step wm now entry wm' i h
    rcases hcase with ⟨hnf, _⟩ | ⟨_, hidx, hent⟩
    · exact absurd hfull hnf
    · rcases hents : wm.entries with _ | ⟨e, es⟩
      · rw [hents] at hidx
        simp [find_eviction_candidate] at hidx
      · rw [hents] at hent hidx
        refine ⟨(minByScore (List.enumFrom 1 es) (0, e)).1,
          (minByScore (List.enumFrom 1 es) (0, e)).2, ?_, ?_, ?_⟩
        · rw [List.enum_cons]
          exact minByScore_mem _ _
        · exact hent
        · intro x hx
          rcases List.mem_cons.mp hx with heq | hx'
          · subst heq
            exact minByScore_le _ _ (0, x) (List.mem_cons_self _ _)
          · obtain ⟨j, hj⟩ := exists_fst_mem_enumFrom es 1 x hx'
            exact minByScore_le _ _ (j, x) (List.mem_cons.mpr (Or.inr hj))
  · intro t₁ t₂ t₃ t₄
    have h1 : (WorkingMemory.new 3).add t₁ mem1 =
        some (⟨[stampEntry t₁ mem1], 3⟩, 0) := by
      rw [add_append_eq _ _ _ (by simp [WorkingMemory.new])]
      rfl
    have h2 : (⟨[stampEntry t₁ mem1], 3⟩ : WorkingMemory).add t₂ mem2 =
        some (⟨[stampEntry t₁ mem1, stampEntry t₂ mem2], 3⟩, 1) := by
      rw [add_append_eq _ _ _ (by simp)]
      rfl
    have h3 : (⟨[stampEntry t₁ mem1, stampEntry t₂ mem2], 3⟩ : WorkingMemory).add t₃ mem3 =
        some (⟨[stampEntry t₁ mem1, stampEntry t₂ mem2, stampEntry t₃ mem3], 3⟩, 2) := by
      rw [add_append_eq _ _ _ (by simp)]
      rfl
    have hs1 : evictionScore (stampEntry t₁ mem1) = 0 := by
      show ((t₁ : ℕ) : ℝ) * mem1.importance * Real.log (1 + ((1 : ℕ) : ℝ)) = 0
      rw [show mem1.importance = 0 from rfl]
      ring
    have hfind : find_eviction_candidate
        [stampEntry t₁ mem1, stampEntry t₂ mem2, stampEntry t₃ mem3] = 0 := by
      show (minByScore (List.enumFrom 1 [stampEntry t₂ mem2, stampEntry t₃ mem3])
        (0, stampEntry t₁ mem1)).1 = 0
      rw [minByScore_stays _ _ ?_]
      intro p hp
      rw [show List.enumFrom 1 [stampEntry t₂ mem2, stampEntry t₃ mem3] =
        [(1, stampEntry t₂ mem2), (2, stampEntry t₃ mem3)] from rfl] at hp
      have hp2 : 0 ≤ evictionScore p.2 := by
        rcases List.mem_cons.mp hp with heq | hp'
        · subst heq
          exact stamp_score_nonneg t₂ mem2 (by norm_num [mem2])
        · rw [List.mem_singleton.mp hp']
          exact stamp_score_nonneg t₃ mem3 (by norm_num [mem3])
      apply not_lt.mpr
      show evictionScore (stampEntry t₁ mem1) ≤ evictionScore p.2
      rw [hs1]
      exact hp2
    have hproj : (⟨[stampEntry t₁ mem1, stampEntry t₂ mem2, stampEntry t₃ mem3], 3⟩ :
        WorkingMemory).entries = [stampEntry t₁ mem1, stampEntry t₂ mem2, stampEntry t₃ mem3] :=
      rfl
    have h4 : (⟨[stampEntry t₁ mem1, stampEntry t₂ mem2, stampEntry t₃ mem3], 3⟩ :
        WorkingMemory).add t₄ mem4 =
        some (⟨[stampEntry t₂ mem2, stampEntry t₃ mem3, stampEntry t₄ mem4], 3⟩, 2) := by
      rw [add_evict_eq _ _ _ (by simp) (by rw [hproj, hfind]; simp)]
      rw [hproj, hfind]
      rfl
    refine ⟨⟨[stampEntry t₂ mem2, stampEntry t₃ mem3, stampEntry t₄ mem4], 3⟩, ?_, rfl, ?_⟩
    · rw [addAll_cons _ _ _ _ h1, addAll_cons _ _ _ _ h2, addAll_cons _ _ _ _ h3,
        addAll_cons _ _ _ _ h4]
      rfl
    · intro x hx
      have himp : x.importance = mem2.importance ∨ x.importance = mem3.importance
          ∨ x.importance = mem4.importance := by
        rcases List.mem_cons.mp hx with heq | hx'
        · exact Or.inl ((congrArg MemoryEntry.importance heq).trans rfl)
        · rcases List.mem_cons.mp hx' with heq | hx2
          · exact Or.inr (Or.inl ((congrArg MemoryEntry.importance heq).trans rfl))
          · rw [List.mem_singleton.mp hx2]
            exact Or.inr (Or.inr rfl)
      rcases himp with heq | heq | heq <;> rw [heq] <;> norm_num [mem2, mem3, mem4]

/-- Witness for claim C6: a one-entry store at capacity evicts its stored entry
(never the incoming one), and the concrete scenario B run. -/
theorem claim_C6_witness :
    (∃ j c, (j, c) ∈ (⟨[mem1], 1⟩ : WorkingMemory).entries.enum
      ∧ (⟨[stampEntry 5 mem2], 1⟩ : WorkingMemory).entries =
          (⟨[mem1], 1⟩ : WorkingMemory).entries.eraseIdx j ++ [stampEntry 5 mem2]
      ∧ ∀ x ∈ (⟨[mem1], 1⟩ : WorkingMemory).entries, evictionScore c ≤ evictionScore x)
    ∧ (∃ wm' : WorkingMemory,
        addAll (WorkingMemory.new 3) [(0, mem1), (1, mem2), (2, mem3), (3, mem4)] = some wm'
        ∧ wm'.entries.length = 3 ∧ ∀ x ∈ wm'.entries, x.importance ≠ 0) := by
  refine ⟨claim_C6.1 ⟨[mem1], 1⟩ 5 mem2 ⟨[stampEntry 5 mem2], 1⟩ 0 (by decide) ?_,
    claim_C6.2 0 1 2 3⟩
  rw [add_evict_eq _ _ _ (by decide) (by decide)]
  rfl

/-! ## Cluster engine lemmas -/

theorem getD_set_self {α : Type} (l : List α) (i : ℕ) (a d : α) (h : i < l.length) :
    (l.set i a).getD i d = a := by
  induction l generalizing i with
  | nil => simp at h
  | cons b bs ih =>
    cases i with
    | zero => rfl
    | succ j => exact ih j (Nat.lt_of_succ_lt_succ h)

theorem getD_set_ne {α : Type} (l : List α) (i j : ℕ) (a d : α) (h : i ≠ j) :
    (l.set i a).getD j d = l.getD j d := by
  induction l generalizing i j with
  | nil => rfl
  | cons b bs ih =>
    cases i with
    | zero =>
      cases j with
      | zero => exact absurd rfl h
      | succ k => rfl
    | succ q =>
      cases j with
      | zero => rfl
      | succ k => exact ih q k (fun hh => h (by rw [hh]))

theorem getD_replicate_lt {α : Type} (n j : ℕ) (v d : α) (h : j < n) :
    (List.replicate n v).getD j d = v := by
  induction n generalizing j with
  | zero => exact absurd h (Nat.not_lt_zero j)
  | succ m ih =>
    cases j with
    | zero => rfl
    | succ k => exact ih k (Nat.lt_of_succ_lt_succ h)

theorem zipWith_mul_self (v : List ℝ) :
    List.zipWith (fun x y => x * y) v v = v.map (fun x => x * x) := by
  induction v with
  | nil => rfl
  | cons a as ih => simp only [List.zipWith_cons_cons, List.map_cons, ih]

/-- `cosine_similarity` of a vector with itself is exactly `1` whenever the
vector has positive squared norm. -/
theorem cosine_similarity_self (v : List ℝ) (hv : 0 < (v.map (fun x => x * x)).sum) :
    cosine_similarity v v = 1 := by
  have hne : v ≠ [] := by
    intro h
    rw [h] at hv
    simp at hv
  have hS : Real.sqrt ((v.map (fun x => x * x)).sum) ≠ 0 :=
    ne_of_gt (Real.sqrt_pos.mpr hv)
  unfold cosine_similarity
  rw [if_neg (by simp [hne]), if_neg (by simp [hS]), zipWith_mul_self,
    Real.mul_self_sqrt (le_of_lt hv), div_self (ne_of_gt hv)]
  norm_num

theorem enumFrom_replicate {α : Type} (k n : ℕ) (v : α) :
    List.enumFrom k (List.replicate n v) = (List.range' k n).map (fun j => (j, v)) := by
  induction n generalizing k with
  | zero => rfl
  | succ m ih =>
    show (k, v) :: List.enumFrom (k + 1) (List.replicate m v) = _
    rw [List.range'_succ, List.map_cons, ih]

theorem enum_replicate {α : Type} (n : ℕ) (v : α) :
    (List.replicate n v).enum = (List.range n).map (fun j => (j, v)) := by
  show List.enumFrom 0 (List.replicate n v) = _
  rw [enumFrom_replicate, List.range_eq_range']

theorem mem_filter_ne_range (n p j : ℕ) :
    j ∈ (List.range n).filter (fun x => decide (x ≠ p)) ↔ j < n ∧ j ≠ p := by
  simp [List.mem_filter, List.mem_range]

theorem length_filter_ne_range (n p : ℕ) (hp : p < n) :
    ((List.range n).filter (fun x => decide (x ≠ p))).length = n - 1 := by
  induction n with
  | zero => exact absurd hp (Nat.not_lt_zero p)
  | succ m ih =>
    rw [List.range_succ, List.filter_append, List.length_append]
    by_cases hpm : p = m
    · subst hpm
      have hall : (List.range p).filter (fun x => decide (x ≠ p)) = List.range p :=
        List.filter_eq_self.mpr (fun x hx => decide_eq_true (Nat.ne_of_lt (List.mem_range.mp hx)))
      have hone : (List.filter (fun x => decide (x ≠ p)) [p]) = [] := by simp
      rw [hall, hone, List.length_range]
      simp
    · have hplt : p < m := lt_of_le_of_ne (Nat.lt_succ_iff.mp hp) hpm
      have hone : (List.filter (fun x => decide (x ≠ p)) [m]) = [m] := by
        simp
        exact fun hh => hpm hh.symm
      rw [ih hplt, hone]
      simp only [List.length_cons, List.length_nil]
      omega

/-- For a batch of identical vectors with positive squared norm and nonnegative
`epsilon`, `region_query` at any in-range point returns every other index. -/
theorem regionQuery_replicate (ce : ClusterEngine) (n : ℕ) (v : List ℝ) (p : ℕ)
    (hp : p < n) (hv : 0 < (v.map (fun x => x * x)).sum) (he : 0 ≤ ce.epsilon) :
    regionQuery ce (List.replicate n v) p =
      (List.range n).filter (fun x => decide (x ≠ p)) := by
  unfold regionQuery
  rw [enum_replicate, List.filter_map, List.map_map]
  have h1 : List.filter ((fun pr : ℕ × List ℝ =>
      if pr.1 = p then false
      else decide (1 - cosine_similarity ((List.replicate n v).getD p []) pr.2 ≤ ce.epsilon))
      ∘ (fun j => (j, v))) (List.range n) =
      List.filter (fun x => decide (x ≠ p)) (List.range n) := by
    apply List.filter_congr
    intro j _
    show (if j = p then false
      else decide (1 - cosine_similarity ((List.replicate n v).getD p []) v ≤ ce.epsilon)) =
      decide (j ≠ p)
    by_cases hjp : j = p
    · subst hjp
      simp
    · rw [if_neg hjp, getD_replicate_lt n p v [] hp, cosine_similarity_self v hv]
      have h2 : (1 : ℝ) - 1 ≤ ce.epsilon := by
        rw [sub_self]
        exact he
      rw [decide_eq_true h2, decide_eq_true hjp]
  rw [h1, show (Prod.fst ∘ fun j : ℕ => (j, v)) = id from rfl, List.map_id]

theorem countFalse_set_lt (l : List Bool) (i : ℕ) (h : l.getD i true = false) :
    countFalse (l.set i true) < countFalse l := by
  induction l generalizing i with
  | nil => simp [List.getD] at h
  | cons b bs ih =>
    cases i with
    | zero =>
      simp only [List.getD_cons_zero] at h
      subst h
      have h1 : countFalse (List.set (false :: bs) 0 true) = countFalse bs := by
        simp [countFalse]
      have h2 : countFalse (false :: bs) = 1 + countFalse bs := by
        simp [countFalse]
      omega
    | succ q =>
      have hq := ih q h
      simp only [List.set_cons_succ, countFalse]
      omega

theorem regionQuery_length_le (ce : ClusterEngine) (E : List (List ℝ)) (index : ℕ) :
    (regionQuery ce E index).length ≤ E.length := by
  unfold regionQuery
  rw [List.length_map]
  calc (List.filter _ E.enum).length ≤ E.enum.length := List.length_filter_le _ _
    _ = E.length := List.enum_length

/-- Loop invariant of the cluster expansion, by strong induction on the
measure `(|E| + 1) * countFalse visited + |seeds|`: when every in-range
point's neighbourhood is large enough to keep expanding, the loop ends with
every point below `n` collected into the cluster and marked visited. -/
theorem expandLoop_spec_aux (ce : ClusterEngine) (E : List (List ℝ)) (n cluster_id : ℕ)
    (hlen : ∀ p, p < n → ce.min_points ≤ (regionQuery ce E p).length)
    (hmem : ∀ p, p < n → ∀ j, j ∈ regionQuery ce E p → j < n) :
    ∀ M seeds (visited : List Bool) (assignments : List ℤ) (cps : List ℕ),
      (E.length + 1) * countFalse visited + seeds.length ≤ M →
      (∀ s ∈ seeds, s < n) → visited.length = n → assignments.length = n →
      (∀ j, j < n → assignments.getD j 0 ≠ -1 ∨ j ∈ seeds) →
      (∀ j, j < n → assignments.getD j 0 ≠ -1 → j ∈ cps) →
      (∀ j, j < n → visited.getD j true = true ∨ j ∈ seeds) →
      (∀ j, j < n → j ∈ (expandLoop ce E cluster_id seeds visited assignments cps).2.2) ∧
      (∀ j, j < n →
        (expandLoop ce E cluster_id seeds visited assignments cps).1.getD j true = true) := by
  intro M
  induction M using Nat.strong_induction_on with
  | _ M ih =>
    intro seeds visited assignments cps hM hseeds hvlen halen hI2 hI3 hI4
    rcases seeds with _ | ⟨point, rest⟩
    · have heq : expandLoop ce E cluster_id [] visited assignments cps =
          (visited, assignments, cps) := by rw [expandLoop]
      rw [heq]
      constructor
      · intro j hj
        rcases hI2 j hj with h | h
        · exact hI3 j hj h
        · simp at h
      · intro j hj
        rcases hI4 j hj with h | h
        · exact h
        · simp at h
    · have hpn : point < n := hseeds point (List.mem_cons_self point rest)
      have hrest : ∀ s ∈ rest, s < n := fun s hs => hseeds s (List.mem_cons_of_mem point hs)
      have hcid : (cluster_id : ℤ) ≠ -1 := by omega
      have hM1 : 1 ≤ M := by
        have := hM
        simp only [List.length_cons] at this
        omega
      by_cases hvis : visited.getD point true = true
      · have hMrest : (E.length + 1) * countFalse visited + rest.length ≤ M - 1 := by
          have := hM
          simp only [List.length_cons] at this
          omega
        by_cases ha : assignments.getD point 0 = -1
        · have heq : expandLoop ce E cluster_id (point :: rest) visited assignments cps =
              expandLoop ce E cluster_id rest visited
                (assignments.set point (cluster_id : ℤ)) (cps ++ [point]) := by
            rw [expandLoop, dif_pos hvis, if_pos ha]
          rw [heq]
          refine ih (M - 1) (by omega) rest visited _ _ hMrest
            hrest hvlen (by rw [List.length_set]; exact halen) ?_ ?_ ?_
          · intro j hj
            by_cases hjp : j = point
            · subst hjp
              left
              rw [getD_set_self assignments j (cluster_id : ℤ) 0 (by rw [halen]; exact hj)]
              exact hcid
            · rw [getD_set_ne assignments point j (cluster_id : ℤ) 0 (fun hh => hjp hh.symm)]
              rcases hI2 j hj with h | h
              · exact Or.inl h
              · rcases List.mem_cons.mp h with h' | h'
                · exact absurd h' hjp
                · exact Or.inr h'
          · intro j hj hne
            by_cases hjp : j = point
            · subst hjp
              exact List.mem_append.mpr (Or.inr (List.mem_singleton.mpr rfl))
            · rw [getD_set_ne assignments point j (cluster_id : ℤ) 0
                (fun hh => hjp hh.symm)] at hne
              exact List.mem_append.mpr (Or.inl (hI3 j hj hne))
          · intro j hj
            rcases hI4 j hj with h | h
            · exact Or.inl h
            · rcases List.mem_cons.mp h with h' | h'
              · subst h'
                exact Or.inl hvis
              · exact Or.inr h'
        · have heq : expandLoop ce E cluster_id (point :: rest) visited assignments cps =
              expandLoop ce E cluster_id rest visited assignments cps := by
            rw [expandLoop, dif_pos hvis, if_neg ha]
          rw [heq]
          refine ih (M - 1) (by omega) rest visited _ _ hMrest
            hrest hvlen halen ?_ hI3 ?_
          · intro j hj
            rcases hI2 j hj with h | h
            · exact Or.inl h
            · rcases List.mem_cons.mp h with h' | h'
              · subst h'
                exact Or.inl ha
              · exact Or.inr h'
          · intro j hj
            rcases hI4 j hj with h | h
            · exact Or.inl h
            · rcases List.mem_cons.mp h with h' | h'
              · subst h'
                exact Or.inl hvis
              · exact Or.inr h'
      · have hvfalse : visited.getD point true = false := by simpa using hvis
        have hcf : countFalse (visited.set point true) < countFalse visited :=
          countFalse_set_lt visited point hvfalse
        have hMnew : (E.length + 1) * countFalse (visited.set point true) +
            ((regionQuery ce E point).reverse ++ rest).length ≤ M - 1 := by
          have hq1 : (E.length + 1) * countFalse (visited.set point true) + (E.length + 1) ≤
              (E.length + 1) * countFalse visited := by
            have := Nat.mul_le_mul_left (E.length + 1) hcf
            rw [Nat.mul_succ] at this
            exact this
          have hq2 : ((regionQuery ce E point).reverse ++ rest).length ≤
              E.length + rest.length := by
            rw [List.length_append, List.length_reverse]
            exact Nat.add_le_add_right (regionQuery_length_le ce E point) rest.length
          have := hM
          simp only [List.length_cons] at this
          omega
        have hsnew : ∀ s ∈ (regionQuery ce E point).reverse ++ rest, s < n := by
          intro s hs
          rcases List.mem_append.mp hs with h | h
          · exact hmem point hpn s (List.mem_reverse.mp h)
          · exact hrest s h
        have hvnew : ∀ j, j < n →
            (visited.set point true).getD j true = true ∨
              j ∈ (regionQuery ce E point).reverse ++ rest := by
          intro j hj
          by_cases hjp : j = point
          · subst hjp
            exact Or.inl (getD_set_self visited j true true (by rw [hvlen]; exact hj))
          · rw [getD_set_ne visited point j true true (fun hh => hjp hh.symm)]
            rcases hI4 j hj with h | h
            · exact Or.inl h
            · rcases List.mem_cons.mp h with h' | h'
              · exact absurd h' hjp
              · exact Or.inr (List.mem_append.mpr (Or.inr h'))
        by_cases ha : assignments.getD point 0 = -1
        · have heq : expandLoop ce E cluster_id (point :: rest) visited assignments cps =
              expandLoop ce E cluster_id ((regionQuery ce E point).reverse ++ rest)
                (visited.set point true)
                (assignments.set point (cluster_id : ℤ)) (cps ++ [point]) := by
            rw [expandLoop, dif_neg hvis, if_pos ha, if_pos (hlen point hpn)]
          rw [heq]
          refine ih (M - 1) (by omega) _ _ _ _ hMnew
            hsnew (by rw [List.length_set]; exact hvlen)
            (by rw [List.length_set]; exact halen) ?_ ?_ hvnew
          · intro j hj
            by_cases hjp : j = point
            · subst hjp
              left
              rw [getD_set_self assignments j (cluster_id : ℤ) 0 (by rw [halen]; exact hj)]
              exact hcid
            · rw [getD_set_ne assignments point j (cluster_id : ℤ) 0 (fun hh => hjp hh.symm)]
              rcases hI2 j hj with h | h
              · exact Or.inl h
              · rcases List.mem_cons.mp h with h' | h'
                · exact absurd h' hjp
                · exact Or.inr (List.mem_append.mpr (Or.inr h'))
          · intro j hj hne
            by_cases hjp : j = point
            · subst hjp
              exact List.mem_append.mpr (Or.inr (List.mem_singleton.mpr rfl))
            · rw [getD_set_ne assignments point j (cluster_id : ℤ) 0
                (fun hh => hjp hh.symm)] at hne
              exact List.mem_append.mpr (Or.inl (hI3 j hj hne))
        · have heq : expandLoop ce E cluster_id (point :: rest) visited assignments cps =
              expandLoop ce E cluster_id ((regionQuery ce E point).reverse ++ rest)
                (visited.set point true) assignments cps := by
            rw [expandLoop, dif_neg hvis, if_neg ha, if_pos (hlen point hpn)]
          rw [heq]
          refine ih (M - 1) (by omega) _ _ _ _ hMnew
            hsnew (by rw [List.length_set]; exact hvlen) halen ?_ hI3 hvnew
          intro j hj
          rcases hI2 j hj with h | h
          · exact Or.inl h
          · rcases List.mem_cons.mp h with h' | h'
            · subst h'
              exact Or.inl ha
            · exact Or.inr (List.mem_append.mpr (Or.inr h'))

/-- `expandLoop_spec_aux` at the measure itself. -/
theorem expandLoop_spec (ce : ClusterEngine) (E : List (List ℝ)) (n cluster_id : ℕ)
    (hlen : ∀ p, p < n → ce.min_points ≤ (regionQuery ce E p).length)
    (hmem : ∀ p, p < n → ∀ j, j ∈ regionQuery ce E p → j < n)
    (seeds : List ℕ) (visited : List Bool) (assignments : List ℤ) (cps : List ℕ)
    (hseeds : ∀ s ∈ seeds, s < n)
    (hvlen : visited.length = n) (halen : assignments.length = n)
    (hI2 : ∀ j, j < n → assignments.getD j 0 ≠ -1 ∨ j ∈ seeds)
    (hI3 : ∀ j, j < n → assignments.getD j 0 ≠ -1 → j ∈ cps)
    (hI4 : ∀ j, j < n → visited.getD j true = true ∨ j ∈ seeds) :
    (∀ j, j < n → j ∈ (expandLoop ce E cluster_id seeds visited assignments cps).2.2) ∧
    (∀ j, j < n →
      (expandLoop ce E cluster_id seeds visited assignments cps).1.getD j true = true) :=
  expandLoop_spec_aux ce E n cluster_id hlen hmem
    ((E.length + 1) * countFalse visited + seeds.length) seeds visited assignments cps
    (le_refl _) hseeds hvlen halen hI2 hI3 hI4

theorem dcStep_skip (ce : ClusterEngine) (E : List (List ℝ))
    (st : List Bool × List ℤ × List Cluster) (i : ℕ)
    (h : st.1.getD i true = true) : dcStep ce E st i = st := by
  unfold dcStep
  rw [if_pos h]

theorem dcStep_run (ce : ClusterEngine) (E : List (List ℝ)) (V : List Bool)
    (A : List ℤ) (C : List Cluster) (i : ℕ)
    (hnv : V.getD i true = false)
    (hbig : ce.min_points ≤ (regionQuery ce E i).length) :
    dcStep ce E (V, A, C) i =
      ((expandLoop ce E C.length ((regionQuery ce E i).reverse)
          (V.set i true) (A.set i (C.length : ℤ)) [i]).1,
        (expandLoop ce E C.length ((regionQuery ce E i).reverse)
          (V.set i true) (A.set i (C.length : ℤ)) [i]).2.1,
        C ++ [Cluster.mk C.length
          (expandLoop ce E C.length ((regionQuery ce E i).reverse)
            (V.set i true) (A.set i (C.length : ℤ)) [i]).2.2
          (calculate_centroid E (expandLoop ce E C.length ((regionQuery ce E i).reverse)
            (V.set i true) (A.set i (C.length : ℤ)) [i]).2.2)
          (expandLoop ce E C.length ((regionQuery ce E i).reverse)
            (V.set i true) (A.set i (C.length : ℤ)) [i]).2.2.length]) := by
  unfold dcStep
  rw [if_neg (show ¬((V, A, C).1.getD i true = true) by
    show ¬(V.getD i true = true)
    rw [hnv]
    exact Bool.false_ne_true), if_pos hbig]

theorem foldl_dcStep_skip (ce : ClusterEngine) (E : List (List ℝ))
    (st : List Bool × List ℤ × List Cluster) :
    ∀ l : List ℕ, (∀ i ∈ l, st.1.getD i true = true) →
      List.foldl (dcStep ce E) st l = st := by
  intro l
  induction l with
  | nil => intro _; rfl
  | cons a as ih =>
    intro h
    rw [List.foldl_cons, dcStep_skip ce E st a (h a (List.mem_cons_self a as))]
    exact ih (fun i hi => h i (List.mem_cons_of_mem a hi))

theorem detectClusters_cons (ce : ClusterEngine) (e : List ℝ) (rest : List (List ℝ)) :
    detectClusters ce (e :: rest) =
      ((List.range (e :: rest).length).foldl (dcStep ce (e :: rest))
        (List.replicate (e :: rest).length false,
          List.replicate (e :: rest).length (-1 : ℤ), [])).2.2 := rfl

/-- Counterexample to claim C7 as stated: `region_query` excludes the queried
point itself, so a single vector with `min_points = 1 = n` (all pairwise
distances trivially `0`) yields ZERO clusters, not one cluster containing all
points, even though `min_points ≤ n`. -/
theorem claim_C7_counterexample :
    (ClusterEngine.new 1 (1 / 2)).min_points ≤ ([[(1 : ℝ)]] : List (List ℝ)).length ∧
    detectClusters (ClusterEngine.new 1 (1 / 2)) [[(1 : ℝ)]] = [] :=
  ⟨by decide, rfl⟩

/-- Claim C7 (amended): `detect_clusters` on an empty input returns zero
clusters, and for every batch of `n ≥ 1` identical vectors of positive squared
norm (all pairwise cosine distance `0`), nonnegative `epsilon`, and
`min_points ≤ n - 1` — not `min_points ≤ n`, since `region_query` never counts
the point itself — it returns exactly one cluster whose `point_indices`
contain all `n` points. -/
theorem claim_C7 (ce : ClusterEngine) (v : List ℝ) (n : ℕ)
    (hn : 0 < n) (hv : 0 < (v.map (fun x => x * x)).sum)
    (he : 0 ≤ ce.epsilon) (hmp : ce.min_points ≤ n - 1) :
    detectClusters ce [] = [] ∧
    ∃ c : Cluster, detectClusters ce (List.replicate n v) = [c] ∧
      ∀ j, j < n → j ∈ c.point_indices := by
  refine ⟨rfl, ?_⟩
  obtain ⟨m, rfl⟩ : ∃ m, n = m + 1 := ⟨n - 1, (Nat.succ_pred_eq_of_pos hn).symm⟩
  have hmp' : ce.min_points ≤ m := by simpa using hmp
  have hRQ : ∀ p, p < m + 1 → regionQuery ce (List.replicate (m + 1) v) p =
      (List.range (m + 1)).filter (fun x => decide (x ≠ p)) :=
    fun p hp => regionQuery_replicate ce (m + 1) v p hp hv he
  have hlen : ∀ p, p < m + 1 →
      ce.min_points ≤ (regionQuery ce (List.replicate (m + 1) v) p).length := by
    intro p hp
    rw [hRQ p hp, length_filter_ne_range (m + 1) p hp]
    simpa using hmp'
  have hmemq : ∀ p, p < m + 1 →
      ∀ j, j ∈ regionQuery ce (List.replicate (m + 1) v) p → j < m + 1 := by
    intro p hp j hj
    rw [hRQ p hp] at hj
    exact ((mem_filter_ne_range (m + 1) p j).mp hj).1
  have hrepl : List.replicate (m + 1) v = v :: List.replicate m v := rfl
  have hlenE : (v :: List.replicate m v).length = m + 1 := by
    simp
  rw [hrepl, detectClusters_cons, hlenE, ← hrepl, List.range_succ_eq_map, List.foldl_cons]
  have h0f : (List.replicate (m + 1) false).getD 0 true = false :=
    getD_replicate_lt (m + 1) 0 false true (Nat.succ_pos m)
  rw [dcStep_run ce (List.replicate (m + 1) v) (List.replicate (m + 1) false)
    (List.replicate (m + 1) (-1 : ℤ)) [] 0 h0f (hlen 0 (Nat.succ_pos m))]
  obtain ⟨hall, hvisall⟩ := expandLoop_spec ce (List.replicate (m + 1) v) (m + 1)
    (List.length ([] : List Cluster))
    hlen hmemq
    ((regionQuery ce (List.replicate (m + 1) v) 0).reverse)
    ((List.replicate (m + 1) false).set 0 true)
    ((List.replicate (m + 1) (-1 : ℤ)).set 0 ((List.length ([] : List Cluster) : ℤ)))
    [0]
    (fun s hs => hmemq 0 (Nat.succ_pos m) s (List.mem_reverse.mp hs))
    (by rw [List.length_set, List.length_replicate])
    (by rw [List.length_set, List.length_replicate])
    (by
      intro j hj
      by_cases hj0 : j = 0
      · subst hj0
        left
        rw [getD_set_self (List.replicate (m + 1) (-1 : ℤ)) 0
          ((List.length ([] : List Cluster) : ℤ)) 0 (by rw [List.length_replicate]; exact hj)]
        omega
      · right
        rw [List.mem_reverse, hRQ 0 (Nat.succ_pos m)]
        exact (mem_filter_ne_range (m + 1) 0 j).mpr ⟨hj, hj0⟩)
    (by
      intro j hj hne
      by_cases hj0 : j = 0
      · subst hj0
        exact List.mem_singleton.mpr rfl
      · rw [getD_set_ne (List.replicate (m + 1) (-1 : ℤ)) 0 j
          ((List.length ([] : List Cluster) : ℤ)) 0 (fun hh => hj0 hh.symm),
          getD_replicate_lt (m + 1) j (-1 : ℤ) 0 hj] at hne
        exact absurd rfl hne)
    (by
      intro j hj
      by_cases hj0 : j = 0
      · subst hj0
        exact Or.inl (getD_set_self (List.replicate (m + 1) false) 0 true true
          (by rw [List.length_replicate]; exact hj))
      · right
        rw [List.mem_reverse, hRQ 0 (Nat.succ_pos m)]
        exact (mem_filter_ne_range (m + 1) 0 j).mpr ⟨hj, hj0⟩)
  rw [foldl_dcStep_skip ce (List.replicate (m + 1) v) _ (List.map Nat.succ (List.range m))
    (by
      intro i hi
      obtain ⟨k, hk, rfl⟩ := List.mem_map.mp hi
      exact hvisall (Nat.succ k) (Nat.succ_lt_succ (List.mem_range.mp hk)))]
  exact ⟨_, rfl, fun j hj => hall j hj⟩

/-- Witness for claim C7: two identical one-dimensional vectors with
`min_points = 1 ≤ 2 - 1` produce exactly one cluster containing both points. -/
theorem claim_C7_witness :
    detectClusters ⟨1, 1⟩ [] = [] ∧
    ∃ c : Cluster, detectClusters ⟨1, 1⟩ (List.replicate 2 [(1 : ℝ)]) = [c] ∧
      ∀ j, j < 2 → j ∈ c.point_indices :=
  claim_C7 ⟨1, 1⟩ [(1 : ℝ)] 2 (by decide) (by simp) zero_le_one (by decide)

end Kazuba
